import Mathlib

/-!
Verification development for the chess-tournament repository
(src/controller/tournament_controller.py, src/repository/player_repository.py).

The controller module is embedded shallowly: its data records become Lean
structures, its interactive loops become step functions driven by explicit
input scripts, and its console/storage side effects are recorded in a ghost
event trace. Line numbers in comments refer to
src/controller/tournament_controller.py.

Parts of the repository that are imported by the controller but are not under
src/ (model/player.py, model/tournament.py, repository/tournament_repository.py,
the view and utils modules) are modelled from the specification where a claim
depends on them; each such definition carries a doc comment starting with
`Modelled from the spec:`.
-/

namespace Chess

/-- A player record (model/player.py fields as used by the controller and by
`player_repository.get_selected_player`, lines 31-34 of player_repository.py:
firstname, lastname, birth, national chess ID). -/
structure Player where
  firstname : String
  lastname : String
  birth : String
  chessId : String
deriving DecidableEq

/-- Name-based player identity as used throughout the source: the duplicate
check at lines 205-206 compares `firstname` and `lastname`, and spec §3 states
"equality by (firstname, lastname) pair in this design". -/
def sameName (p q : Player) : Bool :=
  p.firstname == q.firstname && p.lastname == q.lastname

/-- The display key `f"{player.firstname} {player.lastname}"` (line 79). -/
def fullname (p : Player) : String :=
  p.firstname ++ " " ++ p.lastname

/-- A match: Python keeps a two-entry insertion-ordered dict
`{player: score}`; the controller reads `list(match.players.keys())[0]` and
`[1]` (lines 342-343), so the dict is modelled as the two keyed entries in
insertion order. Scores are rationals (domain {0, 0.5, 1} per spec §3). -/
structure Match where
  player1 : Player
  score1 : ℚ
  player2 : Player
  score2 : ℚ
deriving DecidableEq

/-- A round: name, matches, nullable start/end timestamps
(constructor call at line 159: `Round(round_name, matches, start_time, end_time)`). -/
structure Round where
  name : String
  matchList : List Match  -- `matches` is a Lean keyword; this field is the source's `matches`
  start_time : Option String
  end_time : Option String
deriving DecidableEq

/-- The `players_score` dict built at lines 78-80: display name to score.
Modelled as an insertion-ordered association list, matching Python dict
semantics (first insertion fixes the position, later writes update in place). -/
abbrev ScoreMap := List (String × ℚ)

/-- Tournament state as used by the controller (fields from the constructor at
lines 146-150 plus `rounds`, `current_round`, `players_list`, `players_score`). -/
structure Tournament where
  name : String
  place : String
  date_start : String
  date_end : String
  director_note : String
  rounds : List Round
  current_round : Nat
  players_list : List Player
  players_score : ScoreMap
deriving DecidableEq

/-- Modelled from the spec: the per-match contribution to a player's total.
`Player.calculate_total_score` lives in model/player.py, which is not under
src/. Spec §4.1: "sum, over every match in every completed round where this
player participated, the score value assigned to that player in that match";
participation is keyed by name-based player equality (spec §3). -/
def matchScore (p : Player) (m : Match) : ℚ :=
  if sameName p m.player1 then m.score1
  else if sameName p m.player2 then m.score2
  else 0

/-- Modelled from the spec: `Player.calculate_total_score(rounds, previous_scores)`
(model/player.py, not under src/). Spec §4.1 guarantees that the optional
carried-forward `previous_scores` snapshot "must produce the same result as
full recomputation from scratch", so the function is modelled as the full sum
over the round history; the snapshot argument cannot change the result. -/
def calculate_total_score (p : Player) (rounds : List Round)
    (previous_scores : ScoreMap) : ℚ :=
  rounds.foldl (fun acc r => r.matchList.foldl (fun a m => a + matchScore p m) acc) 0

/-- The comparison underlying `sorted(leaderboard, key=lambda x: x[1],
reverse=True)` (line 76). CPython's sort is stable, and a stable descending
sort by key coincides with `List.insertionSort` under this total preorder. -/
def scoreGE (a b : Player × ℚ) : Prop := b.2 ≤ a.2

instance : DecidableRel scoreGE :=
  fun a b => inferInstanceAs (Decidable (b.2 ≤ a.2))

instance : IsTotal (Player × ℚ) scoreGE :=
  ⟨fun a b => le_total b.2 a.2⟩

instance : IsTrans (Player × ℚ) scoreGE :=
  ⟨fun _ _ _ hab hbc => le_trans hbc hab⟩

/-- Embeds line 76: `sorted_leaderboard = sorted(leaderboard, key=lambda x:
x[1], reverse=True)`. -/
def pySortDescBySnd (l : List (Player × ℚ)) : List (Player × ℚ) :=
  List.insertionSort scoreGE l

/-- Embeds lines 71-74: the raw `(player, total score)` list, in
`tournament.players_list` order. -/
def leaderboard_pairs (tournament : Tournament) (previous_scores : ScoreMap) :
    List (Player × ℚ) :=
  tournament.players_list.map
    (fun player => (player, calculate_total_score player tournament.rounds previous_scores))

/-- Embeds line 76 applied to the raw leaderboard of lines 71-74. -/
def sorted_leaderboard (tournament : Tournament) (previous_scores : ScoreMap) :
    List (Player × ℚ) :=
  pySortDescBySnd (leaderboard_pairs tournament previous_scores)

/-- Python dict write `d[k] = v` on an association list: update in place when
the key is present, append otherwise. -/
def upsert (d : ScoreMap) (k : String) (v : ℚ) : ScoreMap :=
  match d with
  | [] => [(k, v)]
  | (k1, v1) :: rest => if k1 = k then (k, v) :: rest else (k1, v1) :: upsert rest k v

/-- Python dict read `d.get(k)` on an association list. -/
def lookupKey (d : ScoreMap) (k : String) : Option ℚ :=
  match d with
  | [] => none
  | (k1, v1) :: rest => if k1 = k then some v1 else lookupKey rest k

/-- Number of entries of `d` keyed by `k`. -/
def keyCount (d : ScoreMap) (k : String) : Nat :=
  (d.filter (fun e => decide (e.1 = k))).length

/-- Embeds the dict comprehension at lines 78-80:
`{f"{player.firstname} {player.lastname}": score for player, score in
sorted_leaderboard}`, iterating the sorted list in order. -/
def dictOfPairs (l : List (Player × ℚ)) : ScoreMap :=
  l.foldl (fun d pc => upsert d (fullname pc.1) pc.2) []

/-- The value a Python dict comprehension ends up associating to key `k`:
the payload of the last list entry whose name renders to `k`. -/
def lastVal (k : String) : List (Player × ℚ) → Option ℚ
  | [] => none
  | pc :: rest =>
    match lastVal k rest with
    | some v => some v
    | none => if fullname pc.1 = k then some pc.2 else none

/-- Embeds `calculate_leaderboard(tournament, previous_scores)` (lines 60-90).
Its state effect is the assignment of `tournament.players_score` at lines
78-80; the console rendering at lines 83-90 is display only and not modelled. -/
def calculate_leaderboard (tournament : Tournament) (previous_scores : ScoreMap) :
    Tournament :=
  { tournament with
      players_score := dictOfPairs (sorted_leaderboard tournament previous_scores) }

/-- The data state of a `TournamentController` instance: `__init__`
(lines 95-104) stores four collaborator references (behaviour, not data) and
`self.num_players = 0`. No statement anywhere in the class assigns
`self.players_score`; the optional field models the `hasattr(self,
'players_score')` test at lines 352-353, `none` meaning the attribute is
absent. -/
structure ControllerState where
  num_players : Nat
  players_score : Option ScoreMap
deriving DecidableEq

/-- Embeds `TournamentController.__init__` (lines 95-104): `num_players = 0`, and the
`players_score` attribute does not exist on a fresh instance. -/
def controllerInit : ControllerState :=
  { num_players := 0, players_score := none }

/-- Lines 351-353: `previous_scores = self.players_score if hasattr(self,
'players_score') else {}`. -/
def previousScoresOf (c : ControllerState) : ScoreMap :=
  match c.players_score with
  | some m => m
  | none => []

/-- In-place update of list element `i` (Python `lst[i].field = ...` through an
aliased reference); out-of-range indices leave the list unchanged. -/
def modifyIdx {α : Type} (l : List α) (i : Nat) (f : α → α) : List α :=
  match l, i with
  | [], _ => []
  | a :: as, 0 => f a :: as
  | a :: as, n + 1 => a :: modifyIdx as n f

/-- Modelled from the spec: `Tournament.generate_pairs_for_round` (line 339)
lives in model/tournament.py, which is not under src/. Spec §4.2: "the round's
match list is populated in-place; no return value beyond the mutated round" —
its only effect is on `tournament.rounds[tournament.current_round].matches`.
Which pairs it produces is irrelevant to the claims below, so the pairing
computation itself is a parameter `pairsFor`. -/
def generate_pairs_for_round (pairsFor : Tournament → List Match)
    (t : Tournament) : Tournament :=
  { t with rounds :=
      modifyIdx t.rounds t.current_round (fun r => { r with matchList := pairsFor t }) }

/-- The `start_time` of round `i` as read through the live tournament object. -/
def roundStartTime (t : Tournament) (i : Nat) : Option String :=
  (t.rounds[i]?).bind (fun r => r.start_time)

/-- The `end_time` of round `i` as read through the live tournament object. -/
def roundEndTime (t : Tournament) (i : Nat) : Option String :=
  (t.rounds[i]?).bind (fun r => r.end_time)

/-- Ghost trace entries recording the order of the effects inside the
`play_tournament` loop body (lines 329-376). -/
inductive PlayEvent where
  | stampedStart (i : Nat)
  | paired (i : Nat)
  | leaderboardCall (prev : ScoreMap) (i : Nat) (endSnap : Option String)
  | stampedEnd (i : Nat)
  | saved (t : Tournament)
  | asked (answer : Bool)
deriving DecidableEq

/-- Mutable state of a `play_tournament` run: the tournament plus the oracle
cursors (`tick` for `datetime.now()`, `askIdx` for `ask_to_play_next_round`)
and the ghost event trace. -/
structure PlayState where
  t : Tournament
  tick : Nat
  askIdx : Nat
  trace : List PlayEvent
deriving DecidableEq

/-- Lines 333-336: `if current_round.start_time is None: current_round.start_time
= datetime.now().strftime(...)`. -/
def stampStart (clock : Nat → String) (st : PlayState) : PlayState :=
  if roundStartTime st.t st.t.current_round = none then
    let rounds2 := modifyIdx st.t.rounds st.t.current_round
      (fun r => { r with start_time := some (clock st.tick) })
    { st with
        t := { st.t with rounds := rounds2 },
        tick := st.tick + 1,
        trace := st.trace ++ [.stampedStart st.t.current_round] }
  else st

/-- Line 339: `tournament.generate_pairs_for_round()`. -/
def pairStep (pairsFor : Tournament → List Match) (st : PlayState) : PlayState :=
  { st with
      t := generate_pairs_for_round pairsFor st.t,
      trace := st.trace ++ [.paired st.t.current_round] }

/-- Lines 351-356: fetch `previous_scores` from the controller and call
`calculate_leaderboard(tournament, previous_scores)`. The trace entry records
the argument passed and the current round's `end_time` at the moment of the
call. -/
def leaderboardStep (c : ControllerState) (st : PlayState) : PlayState :=
  { st with
      t := calculate_leaderboard st.t (previousScoresOf c),
      trace := st.trace ++
        [.leaderboardCall (previousScoresOf c) st.t.current_round
          (roundEndTime st.t st.t.current_round)] }

/-- Lines 358-360: `if current_round.end_time is None: current_round.end_time =
datetime.now().strftime(...)`. -/
def stampEnd (clock : Nat → String) (st : PlayState) : PlayState :=
  if roundEndTime st.t st.t.current_round = none then
    let rounds2 := modifyIdx st.t.rounds st.t.current_round
      (fun r => { r with end_time := some (clock st.tick) })
    { st with
        t := { st.t with rounds := rounds2 },
        tick := st.tick + 1,
        trace := st.trace ++ [.stampedEnd st.t.current_round] }
  else st

/-- Lines 365-367 and 371-373: `tournament.current_round += 1` followed by
`TournamentRepository().add_tournament(tournament)`; the save handed to the
storage collaborator is recorded as a trace event. -/
def advanceAndSave (st : PlayState) : PlayState :=
  let t2 := { st.t with current_round := st.t.current_round + 1 }
  { st with t := t2, trace := st.trace ++ [.saved t2] }

/-- Outcome of one iteration of the `while` body. -/
inductive BodyResult where
  | indexErr (st : PlayState) (i : Nat)
  | stop (st : PlayState)
  | next (st : PlayState)
deriving DecidableEq

/-- Lines 331-376 of the loop body, after the round fetch at line 329
succeeded: stamp start, pair, compute the leaderboard, stamp end, then decide
how to proceed. -/
def playBodyCore (c : ControllerState) (pairsFor : Tournament → List Match)
    (clock : Nat → String) (answers : Nat → Bool) (st : PlayState) : BodyResult :=
  let st4 := stampEnd clock (leaderboardStep c (pairStep pairsFor (stampStart clock st)))
  -- line 364: `if tournament.current_round == (len(tournament.rounds) - 1)`
  if st4.t.current_round = st4.t.rounds.length - 1 then
    .stop (advanceAndSave st4)
  else
    -- line 370: `if not ask_to_play_next_round()`
    let ans := answers st4.askIdx
    let st5 := { st4 with askIdx := st4.askIdx + 1, trace := st4.trace ++ [.asked ans] }
    if ans = false then
      .stop (advanceAndSave st5)
    else
      -- line 376: `tournament.current_round += 1`, loop again
      .next { st5 with t := { st5.t with current_round := st5.t.current_round + 1 } }

/-- One iteration of the `while` body of `play_tournament` (lines 329-376),
entered when `current_round <= len(rounds)` held. Line 329
(`tournament.rounds[tournament.current_round]`) raises `IndexError` when the
index is out of range; console printing (lines 331, 341-349) is not modelled. -/
def playBody (c : ControllerState) (pairsFor : Tournament → List Match)
    (clock : Nat → String) (answers : Nat → Bool) (st : PlayState) : BodyResult :=
  match st.t.rounds[st.t.current_round]? with
  | none => .indexErr st st.t.current_round
  | some _ => playBodyCore c pairsFor clock answers st

/-- Result of a `play_tournament` run. `outOfFuel` cannot occur for the fuel
chosen by `play_tournament` (every iteration advances `current_round` by one). -/
inductive PlayResult where
  | ok (st : PlayState)
  | indexErr (st : PlayState) (i : Nat)
  | outOfFuel (st : PlayState)
deriving DecidableEq

/-- The state carried by a `PlayResult`. -/
def PlayResult.state : PlayResult → PlayState
  | .ok st => st
  | .indexErr st _ => st
  | .outOfFuel st => st

/-- The `while tournament.current_round <= len(tournament.rounds)` loop of
lines 328-376, with an explicit fuel bound on the number of iterations. -/
def playLoop (c : ControllerState) (pairsFor : Tournament → List Match)
    (clock : Nat → String) (answers : Nat → Bool) :
    Nat → PlayState → PlayResult
  | 0, st => .outOfFuel st
  | fuel + 1, st =>
    if st.t.current_round ≤ st.t.rounds.length then
      match playBody c pairsFor clock answers st with
      | .indexErr st1 i => .indexErr st1 i
      | .stop st1 => .ok st1
      | .next st1 => playLoop c pairsFor clock answers fuel st1
    else .ok st

/-- Embeds `play_tournament(tournament)` (lines 321-376). The fuel
`len(rounds) + 1 - current_round` dominates the iteration count, since every
iteration increments `current_round`. -/
def play_tournament (c : ControllerState) (pairsFor : Tournament → List Match)
    (clock : Nat → String) (answers : Nat → Bool) (tournament : Tournament) :
    PlayResult :=
  playLoop c pairsFor clock answers
    (tournament.rounds.length + 1 - tournament.current_round)
    { t := tournament, tick := 0, askIdx := 0, trace := [] }

/-- Embeds `resume_tournament` (lines 312-319). Modelled from the spec:
`TournamentRepository.resume_tournament` and `Tournament.from_json` are not
under src/; spec §6 requires the storage collaborator's load to reconstruct an
equivalent object graph, so the chosen record is modelled as the tournament
itself, `none` when no tournament was chosen (then the method returns without
playing). -/
def resume_tournament (c : ControllerState) (pairsFor : Tournament → List Match)
    (clock : Nat → String) (answers : Nat → Bool)
    (chosen_tournament : Option Tournament) : Option PlayResult :=
  match chosen_tournament with
  | some t => some (play_tournament c pairsFor clock answers t)
  | none => none

/-- Ghost trace entries for `add_players_to_tournament` (lines 174-257). -/
inductive AddEvent where
  | duplicateRejected (p : Player)
  | playerAdded (p : Player)
  | refusedCount (n : Nat)
  | committed (ps : List Player)
  | savedOnCommit (t : Tournament)
  | playStarted (ps : List Player)
  | quitNotConfirmed
  | invalidChoice
  | fromPlay (e : PlayEvent)
deriving DecidableEq

/-- One resolved turn of the registration menu (lines 198-257): the user's
choice together with what the peripheral collaborators returned for it.
`select` resolves choice "1" through `get_selected_player` (a player and its
index), `create` resolves choice "2" through
`player_controller.create_new_player` (`none` on cancel), `confirm` is choice
"3" together with the later `prompt_play_tournament` answer, `quit` is choice
"q" together with the `confirm_return_to_main_menu` answer, and `invalid` is
any other input string. -/
inductive AddChoice where
  | select (p : Player) (idx : Nat)
  | create (p : Option Player)
  | confirm (playNow : Bool)
  | quit (confirmed : Bool)
  | invalid
deriving DecidableEq

/-- Mutable state of an `add_players_to_tournament` run: the controller
(`self.num_players` is controller state, lines 187, 214, 230), the tournament,
and the locals `selected_players` / `selected_players_index` (lines 180-181). -/
structure AddState where
  ctrl : ControllerState
  tournament : Tournament
  selected_players : List Player
  selected_players_index : List Nat
  trace : List AddEvent
deriving DecidableEq

/-- Entry of `add_players_to_tournament` (lines 180-193): copy the already
registered players into `selected_players`, bump `self.num_players` once per
such player, and clear `tournament.players_list` when it was non-empty. -/
def addInit (c : ControllerState) (tournament : Tournament) : AddState :=
  { ctrl := { c with num_players := c.num_players + tournament.players_list.length },
    tournament := { tournament with
      players_list := if tournament.players_list.isEmpty then tournament.players_list else [] },
    selected_players := tournament.players_list,
    selected_players_index := [],
    trace := [] }

/-- Outcome of one turn of the registration `while True` loop. -/
inductive AddStepResult where
  | continued (st : AddState)
  | stopConfirmed (st : AddState)
  | stopQuit (st : AddState)
  | playFailed (st : AddState)
deriving DecidableEq

/-- One turn of the `while True` registration loop (lines 198-257). Console
printing is recorded as trace events. On a successful confirm with a positive
`prompt_play_tournament` answer, `self.play_tournament(tournament)` runs to
completion before the `break` (line 247-249); a Python `IndexError` escaping
that call is surfaced as `playFailed`. -/
def addStep (pairsFor : Tournament → List Match) (clock : Nat → String)
    (answers : Nat → Bool) (st : AddState) (choice : AddChoice) : AddStepResult :=
  match choice with
  | .select selected_player index =>
    -- lines 201-220
    if st.selected_players.any (fun player => sameName player selected_player) then
      .continued { st with trace := st.trace ++ [.duplicateRejected selected_player] }
    else
      .continued { st with
        selected_players_index := st.selected_players_index ++ [index],
        selected_players := st.selected_players ++ [selected_player],
        ctrl := { st.ctrl with num_players := st.ctrl.num_players + 1 },
        trace := st.trace ++ [.playerAdded selected_player] }
  | .create new_player =>
    -- lines 222-237
    match new_player with
    | some p =>
      .continued { st with
        selected_players := st.selected_players ++ [p],
        ctrl := { st.ctrl with num_players := st.ctrl.num_players + 1 },
        trace := st.trace ++ [.playerAdded p] }
    | none => .continued st
  | .confirm playNow =>
    -- lines 239-252
    if 6 ≤ st.selected_players.length ∧ st.selected_players.length % 2 = 0 then
      let t1 := { st.tournament with
        players_list := st.tournament.players_list ++ st.selected_players }
      let st1 := { st with
        tournament := t1,
        trace := st.trace ++ [AddEvent.committed st.selected_players, AddEvent.savedOnCommit t1] }
      if playNow then
        let st2 := { st1 with trace := st1.trace ++ [AddEvent.playStarted t1.players_list] }
        match play_tournament st2.ctrl pairsFor clock answers st2.tournament with
        | .ok pst =>
          .stopConfirmed { st2 with
            tournament := pst.t, trace := st2.trace ++ pst.trace.map AddEvent.fromPlay }
        | .indexErr pst _ =>
          .playFailed { st2 with
            tournament := pst.t, trace := st2.trace ++ pst.trace.map AddEvent.fromPlay }
        | .outOfFuel pst =>
          .playFailed { st2 with
            tournament := pst.t, trace := st2.trace ++ pst.trace.map AddEvent.fromPlay }
      else .stopConfirmed st1
    else
      .continued { st with trace := st.trace ++ [.refusedCount st.selected_players.length] }
  | .quit confirmed =>
    -- lines 253-255
    if confirmed then .stopQuit st
    else .continued { st with trace := st.trace ++ [.quitNotConfirmed] }
  | .invalid =>
    -- lines 256-257
    .continued { st with trace := st.trace ++ [.invalidChoice] }

/-- Result of running the registration loop on a finite input script:
`pending` means the script ran out while the source loop would still be
blocked waiting for the next user input. -/
inductive AddRunResult where
  | pending (st : AddState)
  | stopConfirmed (st : AddState)
  | stopQuit (st : AddState)
  | playFailed (st : AddState)
deriving DecidableEq

/-- The state carried by an `AddRunResult`. -/
def AddRunResult.state : AddRunResult → AddState
  | .pending st => st
  | .stopConfirmed st => st
  | .stopQuit st => st
  | .playFailed st => st

/-- The `while True` loop of lines 198-257 driven by an input script. -/
def addRun (pairsFor : Tournament → List Match) (clock : Nat → String)
    (answers : Nat → Bool) (st : AddState) : List AddChoice → AddRunResult
  | [] => .pending st
  | choice :: rest =>
    match addStep pairsFor clock answers st choice with
    | .continued st1 => addRun pairsFor clock answers st1 rest
    | .stopConfirmed st1 => .stopConfirmed st1
    | .stopQuit st1 => .stopQuit st1
    | .playFailed st1 => .playFailed st1

/-- Embeds `add_players_to_tournament(tournament)` (lines 174-257). -/
def add_players_to_tournament (c : ControllerState)
    (pairsFor : Tournament → List Match) (clock : Nat → String)
    (answers : Nat → Bool) (tournament : Tournament)
    (choices : List AddChoice) : AddRunResult :=
  addRun pairsFor clock answers (addInit c tournament) choices

/-- The round index an event is about, when it is about one. -/
def eventRound : PlayEvent → Option Nat
  | .stampedStart i => some i
  | .paired i => some i
  | .leaderboardCall _ i _ => some i
  | .stampedEnd i => some i
  | .saved _ => none
  | .asked _ => none

/-- Whether an event records a save handed to the storage collaborator. -/
def isSavedEv : PlayEvent → Bool
  | .saved _ => true
  | _ => false

/-- Number of saves recorded in a trace. -/
def savedCount (tr : List PlayEvent) : Nat :=
  (tr.filter isSavedEv).length

/-- The state carried by an `AddStepResult`. -/
def AddStepResult.state : AddStepResult → AddState
  | .continued st => st
  | .stopConfirmed st => st
  | .stopQuit st => st
  | .playFailed st => st

/-- The state carried by a `BodyResult`. -/
def BodyResult.state : BodyResult → PlayState
  | .indexErr st _ => st
  | .stop st => st
  | .next st => st

/-- A trace in which every recorded `play_tournament` launch had a legal pool:
at least six players and an even count. -/
def goodPool (tr : List AddEvent) : Prop :=
  ∀ ps, AddEvent.playStarted ps ∈ tr → 6 ≤ ps.length ∧ ps.length % 2 = 0

/-- Example player pool (distinct identities). -/
def exP1 : Player := ⟨"Alice", "Martin", "01-01-1990", "AB10001"⟩

def exP2 : Player := ⟨"Bruno", "Petit", "02-02-1991", "AB10002"⟩

def exP3 : Player := ⟨"Chloe", "Durand", "03-03-1992", "AB10003"⟩

def exP4 : Player := ⟨"David", "Moreau", "04-04-1993", "AB10004"⟩

def exP5 : Player := ⟨"Emma", "Laurent", "05-05-1994", "AB10005"⟩

def exP6 : Player := ⟨"Felix", "Simon", "06-06-1995", "AB10006"⟩

/-- A distinct player sharing `exP1`'s full name (name collision case). -/
def exP1bis : Player := ⟨"Alice", "Martin", "07-07-1985", "AB10007"⟩

def exRoundA : Round := ⟨"Round 1", [], none, none⟩

def exRoundB : Round := ⟨"Round 2", [], none, none⟩

/-- A round already played and closed (both timestamps set). -/
def exRoundDone : Round :=
  ⟨"Round 1", [⟨exP1, 1, exP2, 0⟩], some "01-06-2026 10:00", some "01-06-2026 11:00"⟩

/-- A trivial pairing collaborator for concrete runs. -/
def exPairs : Tournament → List Match := fun _ => []

/-- A constant clock for concrete runs. -/
def exClock : Nat → String := fun _ => "01-06-2026 12:00"

/-- A finished tournament: one configured round, `current_round = 1 = len(rounds)`. -/
def tFinished : Tournament :=
  ⟨"Closed", "Lyon", "01-06-2026", "02-06-2026", "", [exRoundDone], 1, [exP1, exP2], []⟩

/-- A fresh two-round tournament about to start. -/
def tTwoRounds : Tournament :=
  ⟨"Open", "Paris", "01-06-2026", "02-06-2026", "", [exRoundA, exRoundB], 0, [exP1, exP2], []⟩

/-- A fresh one-round tournament about to start. -/
def tOneRound : Tournament :=
  ⟨"Quick", "Nice", "01-06-2026", "02-06-2026", "", [exRoundA], 0, [exP1, exP2], []⟩

/-- A two-round tournament resumed with round 0 completed (`current_round = 1`). -/
def tResume : Tournament :=
  ⟨"Resumed", "Lille", "01-06-2026", "02-06-2026", "", [exRoundDone, exRoundB], 1,
    [exP1, exP2], []⟩

/-- A tournament with two registered players sharing a full name. -/
def tCollide : Tournament :=
  ⟨"Collide", "Brest", "01-06-2026", "02-06-2026", "", [exRoundDone], 0,
    [exP1, exP1bis], []⟩

/-- A tournament shell with no registered players, as the registration loop
holds it while running. -/
def tNoPlayers : Tournament :=
  ⟨"Reg", "Metz", "01-06-2026", "02-06-2026", "", [exRoundA], 0, [], []⟩

/-- Loop-resident registration state with six legal selected players, used to
instantiate the confirm-policy theorem. -/
def stSix : AddState :=
  ⟨controllerInit, tNoPlayers, [exP1, exP2, exP3, exP4, exP5, exP6], [], []⟩

/-- Registration state already holding `exP1`, used to witness the duplicate
rejection with the same-named `exP1bis`. -/
def stHasP1 : AddState := ⟨controllerInit, tNoPlayers, [exP1, exP2], [], []⟩

theorem savedCount_append (l1 l2 : List PlayEvent) :
    savedCount (l1 ++ l2) = savedCount l1 + savedCount l2 := by
  simp [savedCount, List.filter_append]

theorem length_modifyIdx {α : Type} (l : List α) (i : Nat) (f : α → α) :
    (modifyIdx l i f).length = l.length := by
  induction l generalizing i with
  | nil => rfl
  | cons a as ih =>
    cases i with
    | zero => rfl
    | succ n => simpa [modifyIdx] using ih n

theorem getElem?_modifyIdx_ne {α : Type} (l : List α) (i j : Nat) (f : α → α)
    (h : j ≠ i) : (modifyIdx l i f)[j]? = l[j]? := by
  induction l generalizing i j with
  | nil => rfl
  | cons a as ih =>
    cases i with
    | zero =>
      cases j with
      | zero => exact absurd rfl h
      | succ m => simp [modifyIdx]
    | succ n =>
      cases j with
      | zero => simp [modifyIdx]
      | succ m =>
        have hmn : m ≠ n := fun hh => h (by rw [hh])
        simpa [modifyIdx] using ih n m hmn

theorem getElem?_modifyIdx_self {α : Type} (l : List α) (i : Nat) (f : α → α) :
    (modifyIdx l i f)[i]? = (l[i]?).map f := by
  induction l generalizing i with
  | nil => rfl
  | cons a as ih =>
    cases i with
    | zero => simp [modifyIdx]
    | succ n => simpa [modifyIdx] using ih n

theorem roundEndTime_modify (t : Tournament) (j : Nat) (g : Round → Round)
    (hg : ∀ r, (g r).end_time = r.end_time) (i : Nat) :
    roundEndTime { t with rounds := modifyIdx t.rounds j g } i = roundEndTime t i := by
  unfold roundEndTime
  by_cases hij : i = j
  · subst hij
    simp only [getElem?_modifyIdx_self]
    cases t.rounds[i]? with
    | none => rfl
    | some r => simp [hg]
  · simp [getElem?_modifyIdx_ne _ _ _ _ hij]

theorem stampStart_t_cr (ck : Nat → String) (st : PlayState) :
    (stampStart ck st).t.current_round = st.t.current_round := by
  unfold stampStart; split <;> rfl

theorem stampStart_rounds_len (ck : Nat → String) (st : PlayState) :
    (stampStart ck st).t.rounds.length = st.t.rounds.length := by
  unfold stampStart; split
  · exact length_modifyIdx _ _ _
  · rfl

theorem stampStart_rounds_ne (ck : Nat → String) (st : PlayState) (i : Nat)
    (h : i ≠ st.t.current_round) :
    (stampStart ck st).t.rounds[i]? = st.t.rounds[i]? := by
  unfold stampStart; split
  · exact getElem?_modifyIdx_ne _ _ _ _ h
  · rfl

theorem stampStart_roundEnd (ck : Nat → String) (st : PlayState) (i : Nat) :
    roundEndTime (stampStart ck st).t i = roundEndTime st.t i := by
  unfold stampStart; split
  · exact roundEndTime_modify st.t st.t.current_round
      (fun r => { r with start_time := some (ck st.tick) }) (fun r => rfl) i
  · rfl

theorem stampStart_askIdx (ck : Nat → String) (st : PlayState) :
    (stampStart ck st).askIdx = st.askIdx := by
  unfold stampStart; split <;> rfl

theorem stampStart_trace (ck : Nat → String) (st : PlayState) :
    (stampStart ck st).trace = st.trace ++
      (if roundStartTime st.t st.t.current_round = none
        then [PlayEvent.stampedStart st.t.current_round] else []) := by
  unfold stampStart; split <;> simp_all

theorem pairStep_t_cr (pf : Tournament → List Match) (st : PlayState) :
    (pairStep pf st).t.current_round = st.t.current_round := rfl

theorem pairStep_rounds_len (pf : Tournament → List Match) (st : PlayState) :
    (pairStep pf st).t.rounds.length = st.t.rounds.length :=
  length_modifyIdx _ _ _

theorem pairStep_rounds_ne (pf : Tournament → List Match) (st : PlayState) (i : Nat)
    (h : i ≠ st.t.current_round) :
    (pairStep pf st).t.rounds[i]? = st.t.rounds[i]? :=
  getElem?_modifyIdx_ne _ _ _ _ h

theorem pairStep_roundEnd (pf : Tournament → List Match) (st : PlayState) (i : Nat) :
    roundEndTime (pairStep pf st).t i = roundEndTime st.t i :=
  roundEndTime_modify st.t st.t.current_round
    (fun r => { r with matchList := pf st.t }) (fun r => rfl) i

theorem pairStep_askIdx (pf : Tournament → List Match) (st : PlayState) :
    (pairStep pf st).askIdx = st.askIdx := rfl

theorem pairStep_trace (pf : Tournament → List Match) (st : PlayState) :
    (pairStep pf st).trace = st.trace ++ [PlayEvent.paired st.t.current_round] := rfl

theorem leaderboardStep_t_cr (c : ControllerState) (st : PlayState) :
    (leaderboardStep c st).t.current_round = st.t.current_round := rfl

theorem leaderboardStep_rounds (c : ControllerState) (st : PlayState) :
    (leaderboardStep c st).t.rounds = st.t.rounds := rfl

theorem leaderboardStep_askIdx (c : ControllerState) (st : PlayState) :
    (leaderboardStep c st).askIdx = st.askIdx := rfl

theorem leaderboardStep_trace (c : ControllerState) (st : PlayState) :
    (leaderboardStep c st).trace = st.trace ++
      [PlayEvent.leaderboardCall (previousScoresOf c) st.t.current_round
        (roundEndTime st.t st.t.current_round)] := rfl

theorem stampEnd_t_cr (ck : Nat → String) (st : PlayState) :
    (stampEnd ck st).t.current_round = st.t.current_round := by
  unfold stampEnd; split <;> rfl

theorem stampEnd_rounds_len (ck : Nat → String) (st : PlayState) :
    (stampEnd ck st).t.rounds.length = st.t.rounds.length := by
  unfold stampEnd; split
  · exact length_modifyIdx _ _ _
  · rfl

theorem stampEnd_rounds_ne (ck : Nat → String) (st : PlayState) (i : Nat)
    (h : i ≠ st.t.current_round) :
    (stampEnd ck st).t.rounds[i]? = st.t.rounds[i]? := by
  unfold stampEnd; split
  · exact getElem?_modifyIdx_ne _ _ _ _ h
  · rfl

theorem stampEnd_askIdx (ck : Nat → String) (st : PlayState) :
    (stampEnd ck st).askIdx = st.askIdx := by
  unfold stampEnd; split <;> rfl

theorem stampEnd_trace (ck : Nat → String) (st : PlayState) :
    (stampEnd ck st).trace = st.trace ++
      (if roundEndTime st.t st.t.current_round = none
        then [PlayEvent.stampedEnd st.t.current_round] else []) := by
  unfold stampEnd; split <;> simp_all

theorem advanceAndSave_t_cr (st : PlayState) :
    (advanceAndSave st).t.current_round = st.t.current_round + 1 := rfl

theorem advanceAndSave_rounds (st : PlayState) :
    (advanceAndSave st).t.rounds = st.t.rounds := rfl

theorem advanceAndSave_trace (st : PlayState) :
    (advanceAndSave st).trace = st.trace ++ [PlayEvent.saved (advanceAndSave st).t] := rfl

theorem mem_ite_singleton {α : Type} {P : Prop} [Decidable P] {e a : α}
    (h : e ∈ (if P then [a] else [])) : e = a := by
  split at h <;> simp_all

/-- Composite facts about the preparation phase of one loop iteration (stamp
start, pair, leaderboard, stamp end): `current_round`, the round count, the
other rounds and `askIdx` are untouched, and the appended events are all about
the current round, the leaderboard call receiving exactly the controller's
`previous_scores` and no save being emitted. -/
theorem prep_spec (c : ControllerState) (pf : Tournament → List Match)
    (ck : Nat → String) (st : PlayState) :
    (stampEnd ck (leaderboardStep c (pairStep pf (stampStart ck st)))).t.current_round
        = st.t.current_round
    ∧ (stampEnd ck (leaderboardStep c (pairStep pf (stampStart ck st)))).t.rounds.length
        = st.t.rounds.length
    ∧ (stampEnd ck (leaderboardStep c (pairStep pf (stampStart ck st)))).askIdx = st.askIdx
    ∧ (∀ i, i ≠ st.t.current_round →
        (stampEnd ck (leaderboardStep c (pairStep pf (stampStart ck st)))).t.rounds[i]?
          = st.t.rounds[i]?)
    ∧ ∃ es, (stampEnd ck (leaderboardStep c (pairStep pf (stampStart ck st)))).trace
          = st.trace ++ es
        ∧ (∃ e rest, es = e :: rest ∧ eventRound e = some st.t.current_round)
        ∧ (∀ e ∈ es, (∀ j, eventRound e = some j → j = st.t.current_round)
            ∧ (∀ p j sn, e = PlayEvent.leaderboardCall p j sn → p = previousScoresOf c)
            ∧ (∀ t0, e ≠ PlayEvent.saved t0)) := by
  refine ⟨?_, ?_, ?_, ?_, ?_⟩
  · rw [stampEnd_t_cr, leaderboardStep_t_cr, pairStep_t_cr, stampStart_t_cr]
  · rw [stampEnd_rounds_len, leaderboardStep_rounds, pairStep_rounds_len,
      stampStart_rounds_len]
  · rw [stampEnd_askIdx, leaderboardStep_askIdx, pairStep_askIdx, stampStart_askIdx]
  · intro i hi
    have h1 : i ≠ (stampStart ck st).t.current_round := by
      rw [stampStart_t_cr]; exact hi
    have h2 : i ≠ (pairStep pf (stampStart ck st)).t.current_round := by
      rw [pairStep_t_cr, stampStart_t_cr]; exact hi
    have h3 : i ≠ (leaderboardStep c (pairStep pf (stampStart ck st))).t.current_round := by
      rw [leaderboardStep_t_cr, pairStep_t_cr, stampStart_t_cr]; exact hi
    rw [stampEnd_rounds_ne _ _ _ h3, leaderboardStep_rounds,
      pairStep_rounds_ne _ _ _ h1, stampStart_rounds_ne _ _ _ hi]
  · have h4 := stampEnd_trace ck (leaderboardStep c (pairStep pf (stampStart ck st)))
    rw [leaderboardStep_trace, pairStep_trace, stampStart_trace,
      leaderboardStep_t_cr, pairStep_t_cr, stampStart_t_cr] at h4
    refine ⟨(if roundStartTime st.t st.t.current_round = none
          then [PlayEvent.stampedStart st.t.current_round] else [])
        ++ PlayEvent.paired st.t.current_round
          :: PlayEvent.leaderboardCall (previousScoresOf c) st.t.current_round
              (roundEndTime (pairStep pf (stampStart ck st)).t st.t.current_round)
          :: (if roundEndTime (leaderboardStep c (pairStep pf (stampStart ck st))).t
                  st.t.current_round = none
              then [PlayEvent.stampedEnd st.t.current_round] else []), ?_, ?_, ?_⟩
    · rw [h4]; simp [List.append_assoc]
    · by_cases hs : roundStartTime st.t st.t.current_round = none
      · exact ⟨PlayEvent.stampedStart st.t.current_round,
          PlayEvent.paired st.t.current_round
            :: PlayEvent.leaderboardCall (previousScoresOf c) st.t.current_round
                (roundEndTime (pairStep pf (stampStart ck st)).t st.t.current_round)
            :: (if roundEndTime (leaderboardStep c (pairStep pf (stampStart ck st))).t
                    st.t.current_round = none
                then [PlayEvent.stampedEnd st.t.current_round] else []),
          by simp [hs], rfl⟩
      · exact ⟨PlayEvent.paired st.t.current_round,
          PlayEvent.leaderboardCall (previousScoresOf c) st.t.current_round
              (roundEndTime (pairStep pf (stampStart ck st)).t st.t.current_round)
            :: (if roundEndTime (leaderboardStep c (pairStep pf (stampStart ck st))).t
                    st.t.current_round = none
                then [PlayEvent.stampedEnd st.t.current_round] else []),
          by simp [hs], rfl⟩
    · intro e he
      rw [List.mem_append] at he
      rcases he with he | he
      · have := mem_ite_singleton he
        subst this
        refine ⟨fun j hj => by simpa [eventRound] using hj.symm, by simp, by simp⟩
      · rw [List.mem_cons] at he
        rcases he with he | he
        · subst he
          refine ⟨fun j hj => by simpa [eventRound] using hj.symm, by simp, by simp⟩
        · rw [List.mem_cons] at he
          rcases he with he | he
          · subst he
            refine ⟨fun j hj => by simpa [eventRound] using hj.symm, ?_, by simp⟩
            intro p j sn hpe
            cases hpe; rfl
          · have := mem_ite_singleton he
            subst this
            refine ⟨fun j hj => by simpa [eventRound] using hj.symm, by simp, by simp⟩

/-- The body core (the source reached line 331 after a successful round fetch)
always ends in a `stop` or a `next`; it cannot raise. -/
theorem playBodyCore_not_indexErr (c : ControllerState) (pf : Tournament → List Match)
    (ck : Nat → String) (ans : Nat → Bool) (st st1 : PlayState) (i : Nat) :
    playBodyCore c pf ck ans st ≠ .indexErr st1 i := by
  intro h
  simp only [playBodyCore] at h
  split at h
  · cases h
  · split at h
    · cases h
    · cases h

/-- A `playBody` returning `indexErr` left the state untouched and reports the
out-of-range index of line 329. -/
theorem playBody_indexErr_spec {c : ControllerState} {pf : Tournament → List Match}
    {ck : Nat → String} {ans : Nat → Bool} {st st1 : PlayState} {i : Nat}
    (h : playBody c pf ck ans st = .indexErr st1 i) :
    st1 = st ∧ i = st.t.current_round ∧ st.t.rounds[st.t.current_round]? = none := by
  unfold playBody at h
  split at h
  · rename_i hr
    cases h
    exact ⟨rfl, rfl, hr⟩
  · exact absurd h (playBodyCore_not_indexErr _ _ _ _ _ _ _)

/-- Projections and trace shape of an advancing (`stop` or `next`) body-core
run: `current_round` goes up by one, the round list keeps its length, rounds
other than the current one are untouched, and the appended events start with
an event about the current round, are all about the current round, and their
leaderboard calls receive exactly the controller's `previous_scores`. -/
theorem playBodyCore_advance {c : ControllerState} {pf : Tournament → List Match}
    {ck : Nat → String} {ans : Nat → Bool} {st st' : PlayState}
    (h : playBodyCore c pf ck ans st = .next st' ∨ playBodyCore c pf ck ans st = .stop st') :
    st'.t.current_round = st.t.current_round + 1
    ∧ st'.t.rounds.length = st.t.rounds.length
    ∧ (∀ i, i ≠ st.t.current_round → st'.t.rounds[i]? = st.t.rounds[i]?)
    ∧ ∃ es, st'.trace = st.trace ++ es
        ∧ (∃ e rest, es = e :: rest ∧ eventRound e = some st.t.current_round)
        ∧ (∀ e ∈ es, (∀ j, eventRound e = some j → j = st.t.current_round)
            ∧ (∀ p j sn, e = PlayEvent.leaderboardCall p j sn → p = previousScoresOf c)) := by
  obtain ⟨hcr, hlen, hask, hframe, es, htr, ⟨e0, rest0, hes, he0⟩, hmem⟩ := prep_spec c pf ck st
  have hmem1 : ∀ e ∈ es, (∀ j, eventRound e = some j → j = st.t.current_round)
      ∧ (∀ p j sn, e = PlayEvent.leaderboardCall p j sn → p = previousScoresOf c) :=
    fun e he => ⟨(hmem e he).1, (hmem e he).2.1⟩
  have hextra : ∀ (b : Bool), ∀ e ∈ [PlayEvent.asked b],
      (∀ j, eventRound e = some j → j = st.t.current_round)
      ∧ (∀ p j sn, e = PlayEvent.leaderboardCall p j sn → p = previousScoresOf c) := by
    intro b e he
    rw [List.mem_singleton] at he
    subst he
    exact ⟨fun j hj => by simp [eventRound] at hj, fun p j sn hpe => by cases hpe⟩
  have hsaved : ∀ (t0 : Tournament), ∀ e ∈ [PlayEvent.saved t0],
      (∀ j, eventRound e = some j → j = st.t.current_round)
      ∧ (∀ p j sn, e = PlayEvent.leaderboardCall p j sn → p = previousScoresOf c) := by
    intro t0 e he
    rw [List.mem_singleton] at he
    subst he
    exact ⟨fun j hj => by simp [eventRound] at hj, fun p j sn hpe => by cases hpe⟩
  simp only [playBodyCore] at h
  set X := stampEnd ck (leaderboardStep c (pairStep pf (stampStart ck st))) with hX
  rcases h with h | h
  · split at h
    · cases h
    · split at h
      · cases h
      · cases h
        refine ⟨congrArg (fun n => n + 1) hcr, hlen, fun i hi => hframe i hi,
          es ++ [PlayEvent.asked (ans X.askIdx)], ?_, ?_, ?_⟩
        · show X.trace ++ [PlayEvent.asked (ans X.askIdx)] = _
          rw [htr, List.append_assoc]
        · exact ⟨e0, rest0 ++ [PlayEvent.asked (ans X.askIdx)], by rw [hes]; rfl, he0⟩
        · exact List.forall_mem_append.mpr ⟨hmem1, hextra _⟩
  · split at h
    · cases h
      refine ⟨congrArg (fun n => n + 1) hcr, hlen, fun i hi => hframe i hi,
        es ++ [PlayEvent.saved (advanceAndSave X).t], ?_, ?_, ?_⟩
      · show X.trace ++ [PlayEvent.saved (advanceAndSave X).t] = _
        rw [htr, List.append_assoc]
      · exact ⟨e0, rest0 ++ [PlayEvent.saved (advanceAndSave X).t], by rw [hes]; rfl, he0⟩
      · exact List.forall_mem_append.mpr ⟨hmem1, hsaved _⟩
    · split at h
      · cases h
        refine ⟨congrArg (fun n => n + 1) hcr, hlen, fun i hi => hframe i hi,
          es ++ [PlayEvent.asked (ans X.askIdx)]
            ++ [PlayEvent.saved { X.t with current_round := X.t.current_round + 1 }],
          ?_, ?_, ?_⟩
        · show X.trace ++ [PlayEvent.asked (ans X.askIdx)]
            ++ [PlayEvent.saved { X.t with current_round := X.t.current_round + 1 }] = _
          rw [htr]
          simp [List.append_assoc]
        · exact ⟨e0, rest0 ++ [PlayEvent.asked (ans X.askIdx)]
            ++ [PlayEvent.saved { X.t with current_round := X.t.current_round + 1 }],
            by rw [hes]; simp, he0⟩
        · exact List.forall_mem_append.mpr
            ⟨List.forall_mem_append.mpr ⟨hmem1, hextra _⟩, hsaved _⟩
      · cases h

/-- The `playBody` version of `playBodyCore_advance`. -/
theorem playBody_advance {c : ControllerState} {pf : Tournament → List Match}
    {ck : Nat → String} {ans : Nat → Bool} {st st' : PlayState}
    (h : playBody c pf ck ans st = .next st' ∨ playBody c pf ck ans st = .stop st') :
    st'.t.current_round = st.t.current_round + 1
    ∧ st'.t.rounds.length = st.t.rounds.length
    ∧ (∀ i, i ≠ st.t.current_round → st'.t.rounds[i]? = st.t.rounds[i]?)
    ∧ ∃ es, st'.trace = st.trace ++ es
        ∧ (∃ e rest, es = e :: rest ∧ eventRound e = some st.t.current_round)
        ∧ (∀ e ∈ es, (∀ j, eventRound e = some j → j = st.t.current_round)
            ∧ (∀ p j sn, e = PlayEvent.leaderboardCall p j sn → p = previousScoresOf c)) := by
  unfold playBody at h
  rcases h with h | h
  · split at h
    · cases h
    · exact playBodyCore_advance (Or.inl h)
  · split at h
    · cases h
    · exact playBodyCore_advance (Or.inr h)

/-- A `next` outcome only happens away from the final configured round
(condition at line 364 false). -/
theorem playBody_next_not_last {c : ControllerState} {pf : Tournament → List Match}
    {ck : Nat → String} {ans : Nat → Bool} {st st' : PlayState}
    (h : playBody c pf ck ans st = .next st') :
    st.t.current_round ≠ st.t.rounds.length - 1 := by
  obtain ⟨hcr, hlen, _, _, _⟩ := prep_spec c pf ck st
  unfold playBody at h
  split at h
  · cases h
  · simp only [playBodyCore] at h
    split at h
    · cases h
    · rename_i hcond
      rw [hcr, hlen] at hcond
      exact hcond

/-- Saves in the loop body: a `next` outcome (user answered yes) hands nothing
to the storage collaborator; a `stop` outcome hands the tournament to storage
exactly once, as the final action of the iteration, and what is saved is the
final tournament (with its advanced `current_round`). -/
theorem playBody_saves {c : ControllerState} {pf : Tournament → List Match}
    {ck : Nat → String} {ans : Nat → Bool} {st : PlayState} :
    (∀ st', playBody c pf ck ans st = .next st' →
        savedCount st'.trace = savedCount st.trace)
    ∧ (∀ st', playBody c pf ck ans st = .stop st' →
        savedCount st'.trace = savedCount st.trace + 1
        ∧ st'.trace.getLast? = some (PlayEvent.saved st'.t)) := by
  obtain ⟨hcr, hlen, hask, hframe, es, htr, hhead, hmem⟩ := prep_spec c pf ck st
  have hes0 : savedCount es = 0 := by
    have hall : ∀ e ∈ es, ¬ (isSavedEv e = true) := by
      intro e he hsav
      rcases hmem e he with ⟨_, _, hns⟩
      cases e with
      | saved t0 => exact absurd rfl (hns t0)
      | stampedStart i => simp [isSavedEv] at hsav
      | paired i => simp [isSavedEv] at hsav
      | leaderboardCall p i sn => simp [isSavedEv] at hsav
      | stampedEnd i => simp [isSavedEv] at hsav
      | asked b => simp [isSavedEv] at hsav
    simp [savedCount, List.filter_eq_nil_iff.mpr hall]
  constructor
  · intro st' h
    unfold playBody at h
    split at h
    · cases h
    · simp only [playBodyCore] at h
      set X := stampEnd ck (leaderboardStep c (pairStep pf (stampStart ck st))) with hX
      split at h
      · cases h
      · split at h
        · cases h
        · cases h
          show savedCount (X.trace ++ [PlayEvent.asked (ans X.askIdx)]) = _
          rw [htr, savedCount_append, savedCount_append, hes0]
          simp [savedCount, isSavedEv]
  · intro st' h
    unfold playBody at h
    split at h
    · cases h
    · simp only [playBodyCore] at h
      set X := stampEnd ck (leaderboardStep c (pairStep pf (stampStart ck st))) with hX
      split at h
      · cases h
        constructor
        · show savedCount (X.trace ++ [PlayEvent.saved (advanceAndSave X).t]) = _
          rw [htr, savedCount_append, savedCount_append, hes0]
          simp [savedCount, isSavedEv]
        · show (X.trace ++ [PlayEvent.saved (advanceAndSave X).t]).getLast? = _
          rw [List.getLast?_concat]
      · split at h
        · cases h
          constructor
          · show savedCount ((X.trace ++ [PlayEvent.asked (ans X.askIdx)])
              ++ [PlayEvent.saved _]) = _
            rw [htr, savedCount_append, savedCount_append, savedCount_append, hes0]
            simp [savedCount, isSavedEv]
          · show ((X.trace ++ [PlayEvent.asked (ans X.askIdx)])
              ++ [PlayEvent.saved _]).getLast? = _
            rw [List.getLast?_concat]
            rfl
        · cases h

/-- Run-level invariant of the `while` loop: `current_round` never decreases,
the round list keeps its length, rounds below the starting `current_round` are
never touched again, and every appended event is about a round at or after the
starting one, leaderboard calls always receiving the controller's
`previous_scores`. -/
theorem playLoop_inv (c : ControllerState) (pf : Tournament → List Match)
    (ck : Nat → String) (ans : Nat → Bool) (fuel : Nat) (st : PlayState) :
    st.t.current_round ≤ ((playLoop c pf ck ans fuel st).state).t.current_round
    ∧ ((playLoop c pf ck ans fuel st).state).t.rounds.length = st.t.rounds.length
    ∧ (∀ i, i < st.t.current_round →
        ((playLoop c pf ck ans fuel st).state).t.rounds[i]? = st.t.rounds[i]?)
    ∧ ∃ es, ((playLoop c pf ck ans fuel st).state).trace = st.trace ++ es
        ∧ (∀ e ∈ es, (∀ j, eventRound e = some j → st.t.current_round ≤ j)
            ∧ (∀ p j sn, e = PlayEvent.leaderboardCall p j sn → p = previousScoresOf c)) := by
  induction fuel generalizing st with
  | zero =>
    simp only [playLoop, PlayResult.state]
    exact ⟨le_refl _, by simp, fun i _ => by simp, [], by simp, by simp⟩
  | succ fuel ih =>
    by_cases hg : st.t.current_round ≤ st.t.rounds.length
    · cases hb : playBody c pf ck ans st with
      | indexErr st1 i =>
        obtain ⟨h1, _, _⟩ := playBody_indexErr_spec hb
        subst h1
        simp only [playLoop, if_pos hg, hb, PlayResult.state]
        exact ⟨le_refl _, by simp, fun i _ => by simp, [], by simp, by simp⟩
      | stop st1 =>
        obtain ⟨hcr, hlen, hframe, es, htr, _, hmem⟩ := playBody_advance (Or.inr hb)
        simp only [playLoop, if_pos hg, hb, PlayResult.state]
        refine ⟨by omega, hlen, fun i hi => hframe i (by omega), es, htr, ?_⟩
        intro e he
        exact ⟨fun j hj => by have := (hmem e he).1 j hj; omega, (hmem e he).2⟩
      | next st1 =>
        obtain ⟨hcr, hlen, hframe, es, htr, _, hmem⟩ := playBody_advance (Or.inl hb)
        obtain ⟨ihcr, ihlen, ihframe, es2, ihtr, ihmem⟩ := ih st1
        simp only [playLoop, if_pos hg, hb]
        refine ⟨by omega, by rw [ihlen, hlen], ?_, es ++ es2, ?_, ?_⟩
        · intro i hi
          rw [ihframe i (by omega), hframe i (by omega)]
        · rw [ihtr, htr, List.append_assoc]
        · intro e he
          rcases List.mem_append.mp he with he | he
          · exact ⟨fun j hj => by have := (hmem e he).1 j hj; omega, (hmem e he).2⟩
          · exact ⟨fun j hj => by have := (ihmem e he).1 j hj; omega, (ihmem e he).2⟩
    · simp only [playLoop, if_neg hg, PlayResult.state]
      exact ⟨le_refl _, by simp, fun i _ => by simp, [], by simp, by simp⟩

/-- With `current_round` strictly inside the round list and enough fuel, the
loop always exits normally through one of its two `break` paths. -/
theorem playLoop_ok (c : ControllerState) (pf : Tournament → List Match)
    (ck : Nat → String) (ans : Nat → Bool) (fuel : Nat) (st : PlayState)
    (hlt : st.t.current_round < st.t.rounds.length)
    (hfuel : st.t.rounds.length - st.t.current_round ≤ fuel) :
    ∃ st', playLoop c pf ck ans fuel st = .ok st' := by
  induction fuel generalizing st with
  | zero => omega
  | succ fuel ih =>
    have hg : st.t.current_round ≤ st.t.rounds.length := le_of_lt hlt
    cases hb : playBody c pf ck ans st with
    | indexErr st1 i =>
      obtain ⟨_, _, hnone⟩ := playBody_indexErr_spec hb
      rw [List.getElem?_eq_getElem hlt] at hnone
      cases hnone
    | stop st1 =>
      exact ⟨st1, by simp only [playLoop, if_pos hg, hb]⟩
    | next st1 =>
      obtain ⟨hcr, hlen, _, _⟩ := playBody_advance (Or.inl hb)
      have hne := playBody_next_not_last hb
      have hlt1 : st1.t.current_round < st1.t.rounds.length := by omega
      have hfuel1 : st1.t.rounds.length - st1.t.current_round ≤ fuel := by omega
      obtain ⟨st', hst'⟩ := ih st1 hlt1 hfuel1
      exact ⟨st', by simp only [playLoop, if_pos hg, hb]; exact hst'⟩

/-- When the loop is entered with a valid current round, the very first event
it emits is about exactly that round. -/
theorem playLoop_first_event (c : ControllerState) (pf : Tournament → List Match)
    (ck : Nat → String) (ans : Nat → Bool) (fuel : Nat) (st : PlayState)
    (hfuel : 0 < fuel) (hlt : st.t.current_round < st.t.rounds.length) :
    ∃ e rest, ((playLoop c pf ck ans fuel st).state).trace = st.trace ++ (e :: rest)
      ∧ eventRound e = some st.t.current_round := by
  cases fuel with
  | zero => omega
  | succ fuel =>
    have hg : st.t.current_round ≤ st.t.rounds.length := le_of_lt hlt
    cases hb : playBody c pf ck ans st with
    | indexErr st1 i =>
      obtain ⟨_, _, hnone⟩ := playBody_indexErr_spec hb
      rw [List.getElem?_eq_getElem hlt] at hnone
      cases hnone
    | stop st1 =>
      obtain ⟨_, _, _, es, htr, ⟨e0, rest0, hes, he0⟩, _⟩ := playBody_advance (Or.inr hb)
      refine ⟨e0, rest0, ?_, he0⟩
      simp only [playLoop, if_pos hg, hb, PlayResult.state]
      rw [htr, hes]
    | next st1 =>
      obtain ⟨_, _, _, es, htr, ⟨e0, rest0, hes, he0⟩, _⟩ := playBody_advance (Or.inl hb)
      obtain ⟨_, _, _, es2, ihtr, _⟩ := playLoop_inv c pf ck ans fuel st1
      refine ⟨e0, rest0 ++ es2, ?_, he0⟩
      simp only [playLoop, if_pos hg, hb]
      rw [ihtr, htr, hes]
      simp [List.append_assoc]

/-- Run-level version of `playBody_saves`: a loop run that exits normally
performs either no save (it was never entered with a round left to play) or
exactly one, as its very last action, of the final tournament state. -/
theorem playLoop_saves (c : ControllerState) (pf : Tournament → List Match)
    (ck : Nat → String) (ans : Nat → Bool) (fuel : Nat) (st st1 : PlayState)
    (h : playLoop c pf ck ans fuel st = .ok st1) :
    savedCount st1.trace = savedCount st.trace
    ∨ (savedCount st1.trace = savedCount st.trace + 1
        ∧ st1.trace.getLast? = some (PlayEvent.saved st1.t)) := by
  induction fuel generalizing st with
  | zero => cases h
  | succ fuel ih =>
    by_cases hg : st.t.current_round ≤ st.t.rounds.length
    · cases hb : playBody c pf ck ans st with
      | indexErr st2 i =>
        simp only [playLoop, if_pos hg, hb] at h
        cases h
      | stop st2 =>
        simp only [playLoop, if_pos hg, hb] at h
        cases h
        exact Or.inr (playBody_saves.2 st1 hb)
      | next st2 =>
        simp only [playLoop, if_pos hg, hb] at h
        have hstep := playBody_saves.1 st2 hb
        rcases ih st2 h with h1 | ⟨h1, h2⟩
        · exact Or.inl (by rw [h1, hstep])
        · exact Or.inr ⟨by rw [h1, hstep], h2⟩
    · simp only [playLoop, if_neg hg] at h
      cases h
      exact Or.inl rfl

theorem stampStart_players (ck : Nat → String) (st : PlayState) :
    (stampStart ck st).t.players_list = st.t.players_list := by
  unfold stampStart; split <;> rfl

theorem stampEnd_players (ck : Nat → String) (st : PlayState) :
    (stampEnd ck st).t.players_list = st.t.players_list := by
  unfold stampEnd; split <;> rfl

/-- When the round fetch of line 329 succeeds, `playBody` is the body core. -/
theorem playBody_eq_core {c : ControllerState} {pf : Tournament → List Match}
    {ck : Nat → String} {ans : Nat → Bool} {st : PlayState} {r : Round}
    (hr : st.t.rounds[st.t.current_round]? = some r) :
    playBody c pf ck ans st = playBodyCore c pf ck ans st := by
  unfold playBody
  rw [hr]

theorem leaderboardStep_roundEnd (c : ControllerState) (st : PlayState) (i : Nat) :
    roundEndTime (leaderboardStep c st).t i = roundEndTime st.t i := rfl

/-- The loop body never changes the registered player list. -/
theorem playBody_players (c : ControllerState) (pf : Tournament → List Match)
    (ck : Nat → String) (ans : Nat → Bool) (st : PlayState) :
    ((playBody c pf ck ans st).state).t.players_list = st.t.players_list := by
  have hX : (stampEnd ck (leaderboardStep c (pairStep pf (stampStart ck st)))).t.players_list
      = st.t.players_list := by
    rw [stampEnd_players]
    show (pairStep pf (stampStart ck st)).t.players_list = st.t.players_list
    show (stampStart ck st).t.players_list = st.t.players_list
    exact stampStart_players ck st
  unfold playBody
  split
  · rfl
  · simp only [playBodyCore]
    set X := stampEnd ck (leaderboardStep c (pairStep pf (stampStart ck st))) with hXdef
    split
    · exact hX
    · split
      · exact hX
      · exact hX

/-- A whole loop run never changes the registered player list. -/
theorem playLoop_players (c : ControllerState) (pf : Tournament → List Match)
    (ck : Nat → String) (ans : Nat → Bool) (fuel : Nat) (st : PlayState) :
    (((playLoop c pf ck ans fuel st).state)).t.players_list = st.t.players_list := by
  induction fuel generalizing st with
  | zero => rfl
  | succ fuel ih =>
    by_cases hg : st.t.current_round ≤ st.t.rounds.length
    · cases hb : playBody c pf ck ans st with
      | indexErr st1 i =>
        have hp := playBody_players c pf ck ans st
        rw [hb] at hp
        simp only [playLoop, if_pos hg, hb, PlayResult.state]
        exact hp
      | stop st1 =>
        have hp := playBody_players c pf ck ans st
        rw [hb] at hp
        simp only [playLoop, if_pos hg, hb, PlayResult.state]
        exact hp
      | next st1 =>
        have hp := playBody_players c pf ck ans st
        rw [hb] at hp
        simp only [playLoop, if_pos hg, hb]
        rw [ih st1]
        exact hp
    · simp only [playLoop, if_neg hg, PlayResult.state]

/-- A `play_tournament` run never changes the registered player list. -/
theorem play_tournament_players (c : ControllerState) (pf : Tournament → List Match)
    (ck : Nat → String) (ans : Nat → Bool) (t : Tournament) :
    ((play_tournament c pf ck ans t).state).t.players_list = t.players_list :=
  playLoop_players c pf ck ans _ _

/-- C5 (amended): in every iteration of the `play_tournament` loop that enters
the body with a valid current round `r`, the leaderboard is computed and
displayed first — at that moment the round's `end_time` still holds its value
from the start of the iteration (the recorded snapshot is exactly
`r.end_time`, in particular still unset when it was unset) — and the round's
`end_time` is stamped (when it was unset) only after the leaderboard call: no
end-stamp event precedes the leaderboard call, and when `r.end_time` was unset
an end-stamp event follows it within the same iteration. -/
theorem play_leaderboard_precedes_end_stamp
    (c : ControllerState) (pf : Tournament → List Match) (ck : Nat → String)
    (ans : Nat → Bool) (st : PlayState) (r : Round)
    (hr : st.t.rounds[st.t.current_round]? = some r) :
    ∃ st' es1 es2,
      (playBody c pf ck ans st = .next st' ∨ playBody c pf ck ans st = .stop st')
      ∧ st'.trace = st.trace ++ es1
          ++ PlayEvent.leaderboardCall (previousScoresOf c) st.t.current_round r.end_time :: es2
      ∧ (∀ i, PlayEvent.stampedEnd i ∉ es1)
      ∧ (r.end_time = none → PlayEvent.stampedEnd st.t.current_round ∈ es2) := by
  have hpb : playBody c pf ck ans st = playBodyCore c pf ck ans st := playBody_eq_core hr
  have hend0 : roundEndTime st.t st.t.current_round = r.end_time := by
    unfold roundEndTime
    rw [hr]
    rfl
  have hend2 : roundEndTime (pairStep pf (stampStart ck st)).t st.t.current_round
      = r.end_time := by
    rw [pairStep_roundEnd, stampStart_roundEnd, hend0]
  have htrX := stampEnd_trace ck (leaderboardStep c (pairStep pf (stampStart ck st)))
  rw [leaderboardStep_trace, pairStep_trace, stampStart_trace,
    leaderboardStep_t_cr, pairStep_t_cr, stampStart_t_cr,
    leaderboardStep_roundEnd, hend2] at htrX
  set X := stampEnd ck (leaderboardStep c (pairStep pf (stampStart ck st))) with hXdef
  have hnotE1 : ∀ i, PlayEvent.stampedEnd i ∉
      ((if roundStartTime st.t st.t.current_round = none
        then [PlayEvent.stampedStart st.t.current_round] else [])
      ++ [PlayEvent.paired st.t.current_round]) := by
    intro i hmem
    rcases List.mem_append.mp hmem with h | h
    · have := mem_ite_singleton h
      simp at this
    · simp at h
  by_cases hlast : X.t.current_round = X.t.rounds.length - 1
  · refine ⟨advanceAndSave X,
      (if roundStartTime st.t st.t.current_round = none
        then [PlayEvent.stampedStart st.t.current_round] else [])
        ++ [PlayEvent.paired st.t.current_round],
      (if r.end_time = none then [PlayEvent.stampedEnd st.t.current_round] else [])
        ++ [PlayEvent.saved (advanceAndSave X).t],
      Or.inr ?_, ?_, hnotE1, ?_⟩
    · rw [hpb]
      simp only [playBodyCore]
      rw [← hXdef, if_pos hlast]
    · rw [advanceAndSave_trace, htrX]
      simp [List.append_assoc]
    · intro hnone
      simp [hnone]
  · by_cases hans : ans X.askIdx = false
    · refine ⟨advanceAndSave ⟨X.t, X.tick, X.askIdx + 1, X.trace ++ [PlayEvent.asked (ans X.askIdx)]⟩,
        (if roundStartTime st.t st.t.current_round = none
          then [PlayEvent.stampedStart st.t.current_round] else [])
          ++ [PlayEvent.paired st.t.current_round],
        (if r.end_time = none then [PlayEvent.stampedEnd st.t.current_round] else [])
          ++ [PlayEvent.asked (ans X.askIdx)]
          ++ [PlayEvent.saved (advanceAndSave ⟨X.t, X.tick, X.askIdx + 1, X.trace ++ [PlayEvent.asked (ans X.askIdx)]⟩).t],
        Or.inr ?_, ?_, hnotE1, ?_⟩
      · rw [hpb]
        simp only [playBodyCore]
        rw [← hXdef, if_neg hlast, if_pos hans]
      · rw [advanceAndSave_trace]
        show (X.trace ++ [PlayEvent.asked (ans X.askIdx)]) ++ [PlayEvent.saved _] = _
        rw [htrX]
        simp [List.append_assoc]
      · intro hnone
        simp [hnone]
    · refine ⟨⟨{ X.t with current_round := X.t.current_round + 1 }, X.tick, X.askIdx + 1, X.trace ++ [PlayEvent.asked (ans X.askIdx)]⟩,
        (if roundStartTime st.t st.t.current_round = none
          then [PlayEvent.stampedStart st.t.current_round] else [])
          ++ [PlayEvent.paired st.t.current_round],
        (if r.end_time = none then [PlayEvent.stampedEnd st.t.current_round] else [])
          ++ [PlayEvent.asked (ans X.askIdx)],
        Or.inl ?_, ?_, hnotE1, ?_⟩
      · rw [hpb]
        simp only [playBodyCore]
        rw [← hXdef, if_neg hlast, if_neg hans]
      · show X.trace ++ [PlayEvent.asked (ans X.askIdx)] = _
        rw [htrX]
        simp [List.append_assoc]
      · intro hnone
        simp [hnone]

theorem goodPool_append {tr es : List AddEvent} (hg : goodPool tr)
    (hes : ∀ ps, AddEvent.playStarted ps ∉ es) : goodPool (tr ++ es) := by
  intro ps hmem
  rcases List.mem_append.mp hmem with h | h
  · exact hg ps h
  · exact absurd h (hes ps)

/-- No registration step ever touches the `players_score` attribute of the
controller (it does not exist to begin with and is never created). -/
theorem addStep_ctrl_score (pf : Tournament → List Match) (ck : Nat → String)
    (ans : Nat → Bool) (st : AddState) (ch : AddChoice) :
    ((addStep pf ck ans st ch).state).ctrl.players_score = st.ctrl.players_score := by
  cases ch with
  | select p idx =>
    simp only [addStep]
    split <;> rfl
  | create p => cases p <;> rfl
  | confirm b =>
    simp only [addStep]
    split
    · split
      · split <;> rfl
      · rfl
    · rfl
  | quit b =>
    simp only [addStep]
    split <;> rfl
  | invalid => rfl

/-- Whole-run version of `addStep_ctrl_score`. -/
theorem addRun_ctrl_score (pf : Tournament → List Match) (ck : Nat → String)
    (ans : Nat → Bool) (cs : List AddChoice) (st : AddState) :
    ((addRun pf ck ans st cs).state).ctrl.players_score = st.ctrl.players_score := by
  induction cs generalizing st with
  | nil => rfl
  | cons ch rest ih =>
    have h1 := addStep_ctrl_score pf ck ans st ch
    cases hs : addStep pf ck ans st ch with
    | continued st1 =>
      rw [hs] at h1
      simp only [addRun, hs]
      rw [ih st1]
      exact h1
    | stopConfirmed st1 =>
      rw [hs] at h1
      simp only [addRun, hs, AddRunResult.state]
      exact h1
    | stopQuit st1 =>
      rw [hs] at h1
      simp only [addRun, hs, AddRunResult.state]
      exact h1
    | playFailed st1 =>
      rw [hs] at h1
      simp only [addRun, hs, AddRunResult.state]
      exact h1

/-- A `continued` registration step leaves the tournament object untouched and
appends a single event which is never a `play_tournament` launch. -/
theorem addStep_continued_spec {pf : Tournament → List Match} {ck : Nat → String}
    {ans : Nat → Bool} {st st1 : AddState} {ch : AddChoice}
    (h : addStep pf ck ans st ch = .continued st1) :
    st1.tournament = st.tournament
    ∧ ∃ es, st1.trace = st.trace ++ es ∧ ∀ ps, AddEvent.playStarted ps ∉ es := by
  cases ch with
  | select p idx =>
    simp only [addStep] at h
    split at h
    · cases h
      exact ⟨rfl, [AddEvent.duplicateRejected p], rfl, by simp⟩
    · cases h
      exact ⟨rfl, [AddEvent.playerAdded p], rfl, by simp⟩
  | create p =>
    cases p with
    | some q =>
      cases h
      exact ⟨rfl, [AddEvent.playerAdded q], rfl, by simp⟩
    | none =>
      cases h
      exact ⟨rfl, [], by simp, by simp⟩
  | confirm b =>
    simp only [addStep] at h
    split at h
    · split at h
      · split at h <;> cases h
      · cases h
    · cases h
      exact ⟨rfl, [AddEvent.refusedCount st.selected_players.length], rfl, by simp⟩
  | quit b =>
    simp only [addStep] at h
    split at h
    · cases h
    · cases h
      exact ⟨rfl, [AddEvent.quitNotConfirmed], rfl, by simp⟩
  | invalid =>
    cases h
    exact ⟨rfl, [AddEvent.invalidChoice], rfl, by simp⟩

/-- The only way the registration loop stops through the quit branch is with
the state exactly as it was (line 253-255 just breaks). -/
theorem addStep_stopQuit_eq {pf : Tournament → List Match} {ck : Nat → String}
    {ans : Nat → Bool} {st st1 : AddState} {ch : AddChoice}
    (h : addStep pf ck ans st ch = .stopQuit st1) : st1 = st := by
  cases ch with
  | select p idx =>
    simp only [addStep] at h
    split at h <;> cases h
  | create p => cases p <;> cases h
  | confirm b =>
    simp only [addStep] at h
    split at h
    · split at h
      · split at h <;> cases h
      · cases h
    · cases h
  | quit b =>
    simp only [addStep] at h
    split at h
    · cases h
      rfl
    · cases h
  | invalid => cases h

/-- Entering `add_players_to_tournament` always leaves the tournament with an
empty `players_list` (lines 189-193: a non-empty list is cleared, an empty one
stays empty). -/
theorem addInit_players (c : ControllerState) (t : Tournament) :
    (addInit c t).tournament.players_list = [] := by
  simp only [addInit]
  split
  · rename_i he
    exact List.isEmpty_iff.mp he
  · rfl

/-- One registration step preserves pool-legality of all recorded
`play_tournament` launches, assuming the tournament player list is empty while
the loop runs (which `addInit` establishes). -/
theorem addStep_good {pf : Tournament → List Match} {ck : Nat → String}
    {ans : Nat → Bool} {st : AddState} (ch : AddChoice)
    (hpl : st.tournament.players_list = []) (hg : goodPool st.trace) :
    goodPool (((addStep pf ck ans st ch).state)).trace := by
  have hplay : ∀ (l : List Player) (tr : List AddEvent), goodPool tr →
      (6 ≤ l.length ∧ l.length % 2 = 0) →
      ∀ (pes : List PlayEvent),
      goodPool ((tr ++ [AddEvent.playStarted l]) ++ List.map AddEvent.fromPlay pes) := by
    intro l tr htr hcnt pes
    apply goodPool_append
    · intro ps hmem
      rcases List.mem_append.mp hmem with h | h
      · exact htr ps h
      · rw [List.mem_singleton] at h
        cases h
        exact hcnt
    · intro ps hmem
      rcases List.mem_map.mp hmem with ⟨e1, _, heq⟩
      cases heq
  cases ch with
  | select p idx =>
    simp only [addStep]
    split
    · exact goodPool_append hg (by simp)
    · exact goodPool_append hg (by simp)
  | create p =>
    cases p with
    | some q => exact goodPool_append hg (by simp)
    | none => exact hg
  | confirm b =>
    cases hres : addStep pf ck ans st (.confirm b) with
    | continued st1 =>
      obtain ⟨_, es, htr, hnp⟩ := addStep_continued_spec hres
      rw [AddStepResult.state, htr]
      exact goodPool_append hg hnp
    | stopConfirmed st1 =>
      simp only [addStep] at hres
      split at hres
      · rename_i hcnt
        split at hres
        · split at hres
          · rename_i pst heq
            cases hres
            rw [AddStepResult.state]
            apply hplay
            · exact goodPool_append hg (by simp)
            · show 6 ≤ (st.tournament.players_list ++ st.selected_players).length
                ∧ (st.tournament.players_list ++ st.selected_players).length % 2 = 0
              rw [hpl]
              simpa using hcnt
          · cases hres
          · cases hres
        · cases hres
          rw [AddStepResult.state]
          show goodPool (st.trace
            ++ [AddEvent.committed st.selected_players, AddEvent.savedOnCommit _])
          exact goodPool_append hg (by simp)
      · cases hres
    | stopQuit st1 =>
      have h1 := addStep_stopQuit_eq hres
      rw [AddStepResult.state, h1]
      exact hg
    | playFailed st1 =>
      simp only [addStep] at hres
      split at hres
      · rename_i hcnt
        split at hres
        · split at hres
          · cases hres
          · rename_i pst i heq
            cases hres
            rw [AddStepResult.state]
            apply hplay
            · exact goodPool_append hg (by simp)
            · show 6 ≤ (st.tournament.players_list ++ st.selected_players).length
                ∧ (st.tournament.players_list ++ st.selected_players).length % 2 = 0
              rw [hpl]
              simpa using hcnt
          · rename_i pst heq
            cases hres
            rw [AddStepResult.state]
            apply hplay
            · exact goodPool_append hg (by simp)
            · show 6 ≤ (st.tournament.players_list ++ st.selected_players).length
                ∧ (st.tournament.players_list ++ st.selected_players).length % 2 = 0
              rw [hpl]
              simpa using hcnt
        · cases hres
      · cases hres
  | quit b =>
    simp only [addStep]
    split
    · exact hg
    · exact goodPool_append hg (by simp)
  | invalid => exact goodPool_append hg (by simp)

/-- Whole-run version of `addStep_good`. -/
theorem addRun_good (pf : Tournament → List Match) (ck : Nat → String)
    (ans : Nat → Bool) (cs : List AddChoice) (st : AddState)
    (hpl : st.tournament.players_list = []) (hg : goodPool st.trace) :
    goodPool (((addRun pf ck ans st cs).state)).trace := by
  induction cs generalizing st with
  | nil => exact hg
  | cons ch rest ih =>
    have hstep := @addStep_good pf ck ans st ch hpl hg
    cases hs : addStep pf ck ans st ch with
    | continued st1 =>
      rw [hs] at hstep
      obtain ⟨hteq, _, _, _⟩ := addStep_continued_spec hs
      simp only [addRun, hs]
      exact ih st1 (by rw [hteq]; exact hpl) hstep
    | stopConfirmed st1 =>
      rw [hs] at hstep
      simp only [addRun, hs, AddRunResult.state]
      exact hstep
    | stopQuit st1 =>
      rw [hs] at hstep
      simp only [addRun, hs, AddRunResult.state]
      exact hstep
    | playFailed st1 =>
      rw [hs] at hstep
      simp only [addRun, hs, AddRunResult.state]
      exact hstep

/-- Abort paths of the registration loop (quit with confirmation, or an
exhausted input script) keep the tournament player list empty. -/
theorem addRun_abort_players (pf : Tournament → List Match) (ck : Nat → String)
    (ans : Nat → Bool) (cs : List AddChoice) (st st1 : AddState)
    (hpl : st.tournament.players_list = [])
    (h : addRun pf ck ans st cs = .stopQuit st1 ∨ addRun pf ck ans st cs = .pending st1) :
    st1.tournament.players_list = [] := by
  induction cs generalizing st with
  | nil =>
    rcases h with h | h
    · cases h
    · cases h
      exact hpl
  | cons ch rest ih =>
    cases hs : addStep pf ck ans st ch with
    | continued st2 =>
      obtain ⟨hteq, _, _, _⟩ := addStep_continued_spec hs
      simp only [addRun, hs] at h
      exact ih st2 (by rw [hteq]; exact hpl) h
    | stopConfirmed st2 =>
      simp only [addRun, hs] at h
      rcases h with h | h <;> cases h
    | stopQuit st2 =>
      simp only [addRun, hs] at h
      rcases h with h | h
      · cases h
        rw [addStep_stopQuit_eq hs]
        exact hpl
      · cases h
    | playFailed st2 =>
      simp only [addRun, hs] at h
      rcases h with h | h <;> cases h

/-- On a legal confirm (an even pool of at least six selected players) the
selected players are committed to `tournament.players_list` (lines 243-244), a
`committed` event is on record, and the step leaves the registration loop. The
final tournament still carries exactly the committed pool even when
`play_tournament` ran, since play never touches `players_list`. -/
theorem addStep_confirm_valid_spec {pf : Tournament → List Match} {ck : Nat → String}
    {ans : Nat → Bool} {st : AddState} (b : Bool)
    (hpl : st.tournament.players_list = [])
    (h6 : 6 ≤ st.selected_players.length) (h2 : st.selected_players.length % 2 = 0) :
    ∃ st1, (addStep pf ck ans st (.confirm b) = .stopConfirmed st1
        ∨ addStep pf ck ans st (.confirm b) = .playFailed st1)
      ∧ st1.tournament.players_list = st.selected_players
      ∧ AddEvent.committed st.selected_players ∈ st1.trace := by
  have hcnt : 6 ≤ st.selected_players.length ∧ st.selected_players.length % 2 = 0 := ⟨h6, h2⟩
  have hok : ∀ (pst : PlayState),
      play_tournament st.ctrl pf ck ans
        { st.tournament with
          players_list := st.tournament.players_list ++ st.selected_players }
        = .ok pst ∨
      (∃ i, play_tournament st.ctrl pf ck ans
        { st.tournament with
          players_list := st.tournament.players_list ++ st.selected_players }
        = .indexErr pst i) ∨
      play_tournament st.ctrl pf ck ans
        { st.tournament with
          players_list := st.tournament.players_list ++ st.selected_players }
        = .outOfFuel pst →
      pst.t.players_list = st.selected_players := by
    intro pst hcase
    have h1 := play_tournament_players st.ctrl pf ck ans
      { st.tournament with
        players_list := st.tournament.players_list ++ st.selected_players }
    rcases hcase with hc | ⟨i, hc⟩ | hc
    all_goals rw [hc] at h1
    all_goals rw [PlayResult.state] at h1
    all_goals rw [h1]
    all_goals rw [hpl]
    all_goals rfl
  cases hres : addStep pf ck ans st (.confirm b) with
  | continued st1 =>
    exfalso
    simp only [addStep] at hres
    rw [if_pos hcnt] at hres
    split at hres
    · split at hres <;> cases hres
    · cases hres
  | stopQuit st1 =>
    exfalso
    simp only [addStep] at hres
    rw [if_pos hcnt] at hres
    split at hres
    · split at hres <;> cases hres
    · cases hres
  | stopConfirmed st1 =>
    refine ⟨st1, Or.inl rfl, ?_⟩
    simp only [addStep] at hres
    rw [if_pos hcnt] at hres
    split at hres
    · split at hres
      · rename_i pst heq
        cases hres
        constructor
        · show pst.t.players_list = st.selected_players
          exact hok pst (Or.inl heq)
        · show AddEvent.committed st.selected_players ∈
            ((st.trace ++ [AddEvent.committed st.selected_players, AddEvent.savedOnCommit _])
              ++ [AddEvent.playStarted _]) ++ List.map AddEvent.fromPlay pst.trace
          simp
      · cases hres
      · cases hres
    · cases hres
      constructor
      · show st.tournament.players_list ++ st.selected_players = st.selected_players
        rw [hpl]
        rfl
      · show AddEvent.committed st.selected_players ∈
          st.trace ++ [AddEvent.committed st.selected_players, AddEvent.savedOnCommit _]
        simp
  | playFailed st1 =>
    refine ⟨st1, Or.inr rfl, ?_⟩
    simp only [addStep] at hres
    rw [if_pos hcnt] at hres
    split at hres
    · split at hres
      · cases hres
      · rename_i pst i heq
        cases hres
        constructor
        · show pst.t.players_list = st.selected_players
          exact hok pst (Or.inr (Or.inl ⟨i, heq⟩))
        · show AddEvent.committed st.selected_players ∈
            ((st.trace ++ [AddEvent.committed st.selected_players, AddEvent.savedOnCommit _])
              ++ [AddEvent.playStarted _]) ++ List.map AddEvent.fromPlay pst.trace
          simp
      · rename_i pst heq
        cases hres
        constructor
        · show pst.t.players_list = st.selected_players
          exact hok pst (Or.inr (Or.inr heq))
        · show AddEvent.committed st.selected_players ∈
            ((st.trace ++ [AddEvent.committed st.selected_players, AddEvent.savedOnCommit _])
              ++ [AddEvent.playStarted _]) ++ List.map AddEvent.fromPlay pst.trace
          simp
    · cases hres

/-- Inserting into a list commutes with filtering on an exact score: entries
with the inserted element's score gain it at the front (it goes before every
equal-scored element already present), entries with any other score are left
alone. This is the stability kernel of the descending sort. -/
theorem filter_orderedInsert (a : Player × ℚ) (l : List (Player × ℚ)) (s : ℚ) :
    (List.orderedInsert scoreGE a l).filter (fun x => decide (x.2 = s))
      = if a.2 = s
        then a :: l.filter (fun x => decide (x.2 = s))
        else l.filter (fun x => decide (x.2 = s)) := by
  induction l with
  | nil =>
    by_cases ha : a.2 = s
    · simp [List.orderedInsert, ha]
    · simp [List.orderedInsert, ha]
  | cons b l ih =>
    simp only [List.orderedInsert]
    by_cases hab : scoreGE a b
    · rw [if_pos hab]
      by_cases ha : a.2 = s
      · by_cases hb : b.2 = s <;> simp [List.filter_cons, ha, hb]
      · by_cases hb : b.2 = s <;> simp [List.filter_cons, ha, hb]
    · rw [if_neg hab]
      have hlt : a.2 < b.2 := lt_of_not_le hab
      by_cases ha : a.2 = s
      · have hb : ¬ (b.2 = s) := by
          intro hbs
          rw [ha, hbs] at hlt
          exact lt_irrefl s hlt
        simp [List.filter_cons, ha, hb, ih]
      · by_cases hb : b.2 = s <;> simp [List.filter_cons, ha, hb, ih]

/-- The Python `sorted(..., key=lambda x: x[1], reverse=True)` model is stable:
filtering the sorted output on any exact score gives the same subsequence, in
the same order, as filtering the input. -/
theorem filter_pySortDescBySnd (l : List (Player × ℚ)) (s : ℚ) :
    (pySortDescBySnd l).filter (fun x => decide (x.2 = s))
      = l.filter (fun x => decide (x.2 = s)) := by
  induction l with
  | nil => rfl
  | cons a l ih =>
    rw [show pySortDescBySnd (a :: l)
        = List.orderedInsert scoreGE a (pySortDescBySnd l) from rfl]
    rw [filter_orderedInsert]
    by_cases ha : a.2 = s
    · rw [if_pos ha, ih]
      simp [List.filter_cons, ha]
    · rw [if_neg ha, ih]
      simp [List.filter_cons, ha]

theorem lookupKey_upsert_self (d : ScoreMap) (k : String) (v : ℚ) :
    lookupKey (upsert d k v) k = some v := by
  induction d with
  | nil => simp [upsert, lookupKey]
  | cons e rest ih =>
    obtain ⟨k1, v1⟩ := e
    by_cases h : k1 = k
    · simp [upsert, h, lookupKey]
    · simp [upsert, h, lookupKey, ih]

theorem lookupKey_upsert_ne (d : ScoreMap) (k k1 : String) (v : ℚ) (h : k1 ≠ k) :
    lookupKey (upsert d k1 v) k = lookupKey d k := by
  induction d with
  | nil => simp [upsert, lookupKey, h]
  | cons e rest ih =>
    obtain ⟨k2, v2⟩ := e
    by_cases h2 : k2 = k1
    · subst h2
      simp [upsert, lookupKey, h]
    · simp only [upsert, if_neg h2, lookupKey, ih]

/-- Folding Python dict insertion over a pair list: a key ends up bound to the
payload of the *last* entry carrying it, falling back to the initial dict. -/
theorem lookupKey_fold (l : List (Player × ℚ)) (d : ScoreMap) (k : String) :
    lookupKey (l.foldl (fun d2 pc => upsert d2 (fullname pc.1) pc.2) d) k
      = match lastVal k l with
        | some v => some v
        | none => lookupKey d k := by
  induction l generalizing d with
  | nil => rfl
  | cons pc rest ih =>
    show lookupKey (rest.foldl _ (upsert d (fullname pc.1) pc.2)) k = _
    rw [ih]
    cases hlv : lastVal k rest with
    | some v => simp [lastVal, hlv]
    | none =>
      by_cases hk : fullname pc.1 = k
      · subst hk
        simp [lastVal, hlv, lookupKey_upsert_self]
      · simp [lastVal, hlv, hk, lookupKey_upsert_ne d k (fullname pc.1) pc.2 hk]

/-- The dict built at lines 78-80 binds each display name to the payload of
the last sorted-leaderboard entry carrying that name. -/
theorem lookupKey_dictOfPairs (l : List (Player × ℚ)) (k : String) :
    lookupKey (dictOfPairs l) k = lastVal k l := by
  rw [dictOfPairs, lookupKey_fold]
  cases lastVal k l <;> rfl

theorem mem_upsert {d : ScoreMap} {k : String} {v : ℚ} {e : String × ℚ}
    (h : e ∈ upsert d k v) : e ∈ d ∨ e = (k, v) := by
  induction d with
  | nil =>
    simp [upsert] at h
    exact Or.inr h
  | cons e1 rest ih =>
    obtain ⟨k1, v1⟩ := e1
    by_cases h1 : k1 = k
    · simp only [upsert, if_pos h1] at h
      rcases List.mem_cons.mp h with h | h
      · exact Or.inr h
      · exact Or.inl (List.mem_cons_of_mem _ h)
    · simp only [upsert, if_neg h1] at h
      rcases List.mem_cons.mp h with h | h
      · exact Or.inl (h ▸ List.mem_cons_self _ _)
      · rcases ih h with h | h
        · exact Or.inl (List.mem_cons_of_mem _ h)
        · exact Or.inr h

theorem upsert_pairwise {d : ScoreMap} {k : String} {v : ℚ}
    (h : d.Pairwise (fun e1 e2 => e1.1 ≠ e2.1)) :
    (upsert d k v).Pairwise (fun e1 e2 => e1.1 ≠ e2.1) := by
  induction d with
  | nil => simp [upsert]
  | cons e1 rest ih =>
    obtain ⟨k1, v1⟩ := e1
    rw [List.pairwise_cons] at h
    by_cases h1 : k1 = k
    · simp only [upsert, if_pos h1]
      rw [List.pairwise_cons]
      refine ⟨?_, h.2⟩
      intro e he
      rw [← h1]
      exact h.1 e he
    · simp only [upsert, if_neg h1]
      rw [List.pairwise_cons]
      refine ⟨?_, ih h.2⟩
      intro e he
      rcases mem_upsert he with he | he
      · exact h.1 e he
      · rw [he]
        exact h1

/-- The dict built at lines 78-80 has pairwise distinct keys: one entry per
display name. -/
theorem dictOfPairs_pairwise (l : List (Player × ℚ)) :
    (dictOfPairs l).Pairwise (fun e1 e2 => e1.1 ≠ e2.1) := by
  have haux : ∀ (l2 : List (Player × ℚ)) (d : ScoreMap),
      d.Pairwise (fun e1 e2 => e1.1 ≠ e2.1) →
      (l2.foldl (fun d2 pc => upsert d2 (fullname pc.1) pc.2) d).Pairwise
        (fun e1 e2 => e1.1 ≠ e2.1) := by
    intro l2
    induction l2 with
    | nil => intro d hd; exact hd
    | cons pc rest ih =>
      intro d hd
      exact ih _ (upsert_pairwise hd)
  exact haux l [] (by simp)

theorem keyCount_eq_zero {d : ScoreMap} {k : String} (h : ∀ e ∈ d, e.1 ≠ k) :
    keyCount d k = 0 := by
  simp only [keyCount, List.length_eq_zero]
  rw [List.filter_eq_nil_iff]
  intro e he
  simp [h e he]

/-- A dict with pairwise distinct keys and a successful lookup has exactly one
entry under that key. -/
theorem keyCount_one {d : ScoreMap} {k : String} {v : ℚ}
    (hnd : d.Pairwise (fun e1 e2 => e1.1 ≠ e2.1)) (hl : lookupKey d k = some v) :
    keyCount d k = 1 := by
  induction d with
  | nil => cases hl
  | cons e rest ih =>
    obtain ⟨k1, v1⟩ := e
    rw [List.pairwise_cons] at hnd
    by_cases h1 : k1 = k
    · subst h1
      have hz : keyCount rest k1 = 0 :=
        keyCount_eq_zero (fun e2 he2 => (hnd.1 e2 he2).symm)
      simp only [keyCount, List.filter_cons] at hz ⊢
      rw [if_pos (by simp)]
      simp only [List.length_cons]
      omega
    · simp only [lookupKey, if_neg h1] at hl
      have hc := ih hnd.2 hl
      simp only [keyCount, List.filter_cons] at hc ⊢
      rw [if_neg (by simp [h1])]
      exact hc

theorem lastVal_mem {k : String} {l : List (Player × ℚ)} {w : ℚ}
    (h : lastVal k l = some w) : ∃ pc ∈ l, fullname pc.1 = k ∧ pc.2 = w := by
  induction l with
  | nil => cases h
  | cons pc rest ih =>
    cases hlv : lastVal k rest with
    | some v =>
      rw [lastVal, hlv] at h
      cases h
      obtain ⟨pc2, hmem, hname, hval⟩ := ih hlv
      exact ⟨pc2, List.mem_cons_of_mem _ hmem, hname, hval⟩
    | none =>
      rw [lastVal, hlv] at h
      by_cases hk : fullname pc.1 = k
      · rw [if_pos hk] at h
        cases h
        exact ⟨pc, List.mem_cons_self _ _, hk, rfl⟩
      · rw [if_neg hk] at h
        cases h

theorem lastVal_isSome {k : String} {l : List (Player × ℚ)}
    (h : ∃ pc ∈ l, fullname pc.1 = k) : (lastVal k l).isSome = true := by
  induction l with
  | nil =>
    obtain ⟨pc, hmem, _⟩ := h
    cases hmem
  | cons pc rest ih =>
    cases hlv : lastVal k rest with
    | some v => simp [lastVal, hlv]
    | none =>
      obtain ⟨pc2, hmem, hname⟩ := h
      rcases List.mem_cons.mp hmem with hmem | hmem
      · subst hmem
        simp [lastVal, hlv, hname]
      · have := ih ⟨pc2, hmem, hname⟩
        rw [hlv] at this
        cases this

/-- C1: the claim fails on the code. The loop guard at line 328 is
`current_round <= len(rounds)` rather than `<`, so calling `play_tournament`
on a finished tournament (`current_round = len(rounds) = 1` here) enters the
body once more and the fetch `tournament.rounds[1]` at line 329 is out of
range: the run aborts with the modelled `IndexError` instead of terminating
without any out-of-bounds access. -/
theorem play_tournament_finished_index_error :
    play_tournament controllerInit exPairs exClock (fun _ => true) tFinished
      = .indexErr ⟨tFinished, 0, 0, []⟩ 1 := by decide

/-- C2 counterexample: a two-round run in which the user answers yes after
round 0. Round 0 is completely finalized inside the first five events (its
end-stamp is among them), round 1 begins with the sixth event, yet no save at
all occurs before round 1 begins — and the whole run contains exactly one
save. This refutes "after every round is finalized ... a durable save before
the next round begins". -/
theorem play_tournament_no_save_before_next_round :
    PlayEvent.stampedEnd 0 ∈ (((play_tournament controllerInit exPairs exClock
        (fun _ => true) tTwoRounds).state).trace.take 5)
    ∧ savedCount (((play_tournament controllerInit exPairs exClock
        (fun _ => true) tTwoRounds).state).trace.take 5) = 0
    ∧ (((play_tournament controllerInit exPairs exClock
        (fun _ => true) tTwoRounds).state).trace)[5]? = some (PlayEvent.stampedStart 1)
    ∧ savedCount (((play_tournament controllerInit exPairs exClock
        (fun _ => true) tTwoRounds).state).trace) = 1 := by decide

/-- C2 (amended): the controller hands the tournament to the storage
collaborator only on the iteration where the loop exits. An iteration after
which the user continues performs no save; an iteration that leaves the loop
(final configured round played, or the user declined the next round) performs
exactly one save, as its final action, of the advanced tournament; and a
whole run that exits normally performs at most one save in total. -/
theorem play_tournament_saves_only_on_exit :
    (∀ (c : ControllerState) (pf : Tournament → List Match) (ck : Nat → String)
        (ans : Nat → Bool) (st st1 : PlayState),
      playBody c pf ck ans st = .next st1 → savedCount st1.trace = savedCount st.trace)
    ∧ (∀ (c : ControllerState) (pf : Tournament → List Match) (ck : Nat → String)
        (ans : Nat → Bool) (st st1 : PlayState),
      playBody c pf ck ans st = .stop st1 →
        savedCount st1.trace = savedCount st.trace + 1
        ∧ st1.trace.getLast? = some (PlayEvent.saved st1.t))
    ∧ (∀ (c : ControllerState) (pf : Tournament → List Match) (ck : Nat → String)
        (ans : Nat → Bool) (fuel : Nat) (st st1 : PlayState),
      playLoop c pf ck ans fuel st = .ok st1 →
        savedCount st1.trace ≤ savedCount st.trace + 1) := by
  refine ⟨fun c pf ck ans st st1 h => playBody_saves.1 st1 h,
    fun c pf ck ans st st1 h => playBody_saves.2 st1 h, ?_⟩
  intro c pf ck ans fuel st st1 h
  rcases playLoop_saves c pf ck ans fuel st st1 h with h1 | ⟨h1, _⟩ <;> omega

theorem play_tournament_saves_only_on_exit_witness :
    playBody controllerInit exPairs exClock (fun _ => false) ⟨tOneRound, 0, 0, []⟩
      = .stop ((playBody controllerInit exPairs exClock (fun _ => false)
          ⟨tOneRound, 0, 0, []⟩).state)
    ∧ (savedCount ((playBody controllerInit exPairs exClock (fun _ => false)
          ⟨tOneRound, 0, 0, []⟩).state).trace
        = savedCount (⟨tOneRound, 0, 0, []⟩ : PlayState).trace + 1
      ∧ (((playBody controllerInit exPairs exClock (fun _ => false)
          ⟨tOneRound, 0, 0, []⟩).state).trace).getLast?
        = some (PlayEvent.saved ((playBody controllerInit exPairs exClock (fun _ => false)
          ⟨tOneRound, 0, 0, []⟩).state).t)) :=
  ⟨by decide, play_tournament_saves_only_on_exit.2.1 controllerInit exPairs exClock
    (fun _ => false) ⟨tOneRound, 0, 0, []⟩ _ (by decide)⟩

/-- C5 counterexample: a concrete iteration whose round starts with
`end_time` unset. The leaderboard call (trace position 2) happens while
`end_time` is still unset — its recorded snapshot is `none` — and the
end-stamp event lands at position 3, strictly after it. So the round's
end_time is not stamped before the leaderboard is computed and displayed. -/
theorem play_tournament_leaderboard_sees_unset_end_time :
    (((play_tournament controllerInit exPairs exClock (fun _ => false)
        tOneRound).state).trace)[2]? = some (PlayEvent.leaderboardCall [] 0 none)
    ∧ (((play_tournament controllerInit exPairs exClock (fun _ => false)
        tOneRound).state).trace)[3]? = some (PlayEvent.stampedEnd 0) := by decide

theorem play_leaderboard_precedes_end_stamp_witness :
    (⟨tOneRound, 0, 0, []⟩ : PlayState).t.rounds[(⟨tOneRound, 0, 0, []⟩
        : PlayState).t.current_round]? = some exRoundA
    ∧ (∃ st1 es1 es2,
      (playBody controllerInit exPairs exClock (fun _ => false) ⟨tOneRound, 0, 0, []⟩
          = .next st1
        ∨ playBody controllerInit exPairs exClock (fun _ => false) ⟨tOneRound, 0, 0, []⟩
          = .stop st1)
      ∧ st1.trace = (⟨tOneRound, 0, 0, []⟩ : PlayState).trace ++ es1
          ++ PlayEvent.leaderboardCall (previousScoresOf controllerInit)
            (⟨tOneRound, 0, 0, []⟩ : PlayState).t.current_round exRoundA.end_time :: es2
      ∧ (∀ i, PlayEvent.stampedEnd i ∉ es1)
      ∧ (exRoundA.end_time = none →
          PlayEvent.stampedEnd (⟨tOneRound, 0, 0, []⟩ : PlayState).t.current_round ∈ es2)) :=
  ⟨by decide, play_leaderboard_precedes_end_stamp controllerInit exPairs exClock
    (fun _ => false) ⟨tOneRound, 0, 0, []⟩ exRoundA (by decide)⟩

/-- C4: for every tournament and previous-scores snapshot, the displayed
leaderboard is the raw (player, total score) sequence — taken in
`players_list` order — sorted by descending total score: it is a permutation
of the raw pairs, pairwise ordered under `scoreGE`, and the sort is stable
with no secondary tie-break: for every score value, the sorted entries with
exactly that score form the same sequence, in the same order, as the raw
entries with that score. -/
theorem calculate_leaderboard_sorted_stable (t : Tournament) (prev : ScoreMap) :
    (sorted_leaderboard t prev).Perm (leaderboard_pairs t prev)
    ∧ List.Sorted scoreGE (sorted_leaderboard t prev)
    ∧ (∀ s : ℚ, (sorted_leaderboard t prev).filter (fun x => decide (x.2 = s))
        = (leaderboard_pairs t prev).filter (fun x => decide (x.2 = s))) :=
  ⟨List.perm_insertionSort scoreGE _, List.sorted_insertionSort scoreGE _,
    fun s => filter_pySortDescBySnd _ s⟩

/-- C3: resuming a tournament with `0 < current_round < len(rounds)` re-enters
play exactly at round index `current_round`: the run completes normally, its
very first emitted event is about round `current_round`, no event of the run
concerns any smaller round index (earlier rounds are not replayed or
repopulated), and every round with a smaller index — matches and timestamps
included — is bit-for-bit unchanged in the final tournament. -/
theorem resume_tournament_reenters_at_current_round
    (c : ControllerState) (pf : Tournament → List Match) (ck : Nat → String)
    (ans : Nat → Bool) (t : Tournament)
    (h0 : 0 < t.current_round) (hlt : t.current_round < t.rounds.length) :
    ∃ st1, resume_tournament c pf ck ans (some t) = some (.ok st1)
      ∧ (∃ e rest, st1.trace = e :: rest ∧ eventRound e = some t.current_round)
      ∧ (∀ i, i < t.current_round → st1.t.rounds[i]? = t.rounds[i]?)
      ∧ (∀ e ∈ st1.trace, ∀ j, eventRound e = some j → t.current_round ≤ j) := by
  obtain ⟨st1, hok⟩ := playLoop_ok c pf ck ans (t.rounds.length + 1 - t.current_round)
    ⟨t, 0, 0, []⟩ hlt
    (by show t.rounds.length - t.current_round ≤ t.rounds.length + 1 - t.current_round; omega)
  refine ⟨st1, ?_, ?_, ?_, ?_⟩
  · show some (play_tournament c pf ck ans t) = some (.ok st1)
    rw [show play_tournament c pf ck ans t = playLoop c pf ck ans
      (t.rounds.length + 1 - t.current_round) ⟨t, 0, 0, []⟩ from rfl, hok]
  · obtain ⟨e, rest, htr, he⟩ := playLoop_first_event c pf ck ans
      (t.rounds.length + 1 - t.current_round) ⟨t, 0, 0, []⟩ (by omega) hlt
    rw [hok] at htr
    rw [PlayResult.state] at htr
    exact ⟨e, rest, by simpa using htr, he⟩
  · intro i hi
    have hfr := (playLoop_inv c pf ck ans (t.rounds.length + 1 - t.current_round)
      ⟨t, 0, 0, []⟩).2.2.1 i hi
    rw [hok, PlayResult.state] at hfr
    exact hfr
  · intro e he j hj
    obtain ⟨_, _, _, es, htr, hmemall⟩ := playLoop_inv c pf ck ans
      (t.rounds.length + 1 - t.current_round) ⟨t, 0, 0, []⟩
    rw [hok, PlayResult.state] at htr
    rw [htr] at he
    rw [List.nil_append] at he
    exact (hmemall e he).1 j hj

theorem resume_tournament_reenters_at_current_round_witness :
    0 < tResume.current_round ∧ tResume.current_round < tResume.rounds.length
    ∧ (∃ st1, resume_tournament controllerInit exPairs exClock (fun _ => true)
          (some tResume) = some (.ok st1)
        ∧ (∃ e rest, st1.trace = e :: rest ∧ eventRound e = some tResume.current_round)
        ∧ (∀ i, i < tResume.current_round → st1.t.rounds[i]? = tResume.rounds[i]?)
        ∧ (∀ e ∈ st1.trace, ∀ j, eventRound e = some j → tResume.current_round ≤ j)) :=
  ⟨by decide, by decide, resume_tournament_reenters_at_current_round controllerInit
    exPairs exClock (fun _ => true) tResume (by decide) (by decide)⟩

/-- C6: confirm policy of lines 239-252. (i) Over any full registration run,
every recorded `play_tournament` launch happened with a committed pool of at
least six players of even count — pairing is never run against an invalid
pool. (ii) From any loop-resident state (the tournament list is empty there;
`addInit` establishes it), confirming a legal selected pool commits exactly
the selected players to `tournament.players_list`, records the commit, and
leaves the loop. (iii) Confirming an illegal count only reports the refusal
and continues the loop with the state otherwise unchanged, so the caller can
retry registration. -/
theorem add_players_confirm_policy :
    (∀ (c : ControllerState) (pf : Tournament → List Match) (ck : Nat → String)
        (ans : Nat → Bool) (t : Tournament) (cs : List AddChoice) (ps : List Player),
      AddEvent.playStarted ps ∈ (((add_players_to_tournament c pf ck ans t cs).state)).trace →
      6 ≤ ps.length ∧ ps.length % 2 = 0)
    ∧ (∀ (pf : Tournament → List Match) (ck : Nat → String) (ans : Nat → Bool)
        (st : AddState) (b : Bool), st.tournament.players_list = [] →
        6 ≤ st.selected_players.length → st.selected_players.length % 2 = 0 →
        ∃ st1, (addStep pf ck ans st (.confirm b) = .stopConfirmed st1
            ∨ addStep pf ck ans st (.confirm b) = .playFailed st1)
          ∧ st1.tournament.players_list = st.selected_players
          ∧ AddEvent.committed st.selected_players ∈ st1.trace)
    ∧ (∀ (pf : Tournament → List Match) (ck : Nat → String) (ans : Nat → Bool)
        (st : AddState) (b : Bool),
        ¬ (6 ≤ st.selected_players.length ∧ st.selected_players.length % 2 = 0) →
        addStep pf ck ans st (.confirm b) = .continued
          { st with trace := st.trace ++ [AddEvent.refusedCount st.selected_players.length] }) := by
  refine ⟨?_, ?_, ?_⟩
  · intro c pf ck ans t cs ps hmem
    refine addRun_good pf ck ans cs (addInit c t) (addInit_players c t) ?_ ps hmem
    intro ps2 hm
    cases hm
  · intro pf ck ans st b hpl h6 h2
    exact addStep_confirm_valid_spec b hpl h6 h2
  · intro pf ck ans st b hcnt
    simp only [addStep]
    rw [if_neg hcnt]

theorem add_players_confirm_policy_witness :
    stSix.tournament.players_list = []
    ∧ 6 ≤ stSix.selected_players.length
    ∧ stSix.selected_players.length % 2 = 0
    ∧ (∃ st1, (addStep exPairs exClock (fun _ => false) stSix (.confirm false)
          = .stopConfirmed st1
        ∨ addStep exPairs exClock (fun _ => false) stSix (.confirm false)
          = .playFailed st1)
      ∧ st1.tournament.players_list = stSix.selected_players
      ∧ AddEvent.committed stSix.selected_players ∈ st1.trace) :=
  ⟨by decide, by decide, by decide, add_players_confirm_policy.2.1 exPairs exClock
    (fun _ => false) stSix false (by decide) (by decide) (by decide)⟩

/-- C7: selecting a player whose (firstname, lastname) pair is already among
the selected players (lines 204-210) is rejected with a message and nothing
else happens: the selected set, the index list, the player count and the
tournament are unchanged, and the step continues the registration loop. -/
theorem add_players_duplicate_rejected (pf : Tournament → List Match)
    (ck : Nat → String) (ans : Nat → Bool) (st : AddState) (p : Player) (idx : Nat)
    (hdup : ∃ q ∈ st.selected_players,
      q.firstname = p.firstname ∧ q.lastname = p.lastname) :
    addStep pf ck ans st (.select p idx)
      = .continued { st with trace := st.trace ++ [AddEvent.duplicateRejected p] } := by
  have hany : st.selected_players.any (fun q => sameName q p) = true := by
    rw [List.any_eq_true]
    obtain ⟨q, hq, h1, h2⟩ := hdup
    exact ⟨q, hq, by simp [sameName, h1, h2]⟩
  simp only [addStep]
  rw [if_pos hany]

theorem add_players_duplicate_rejected_witness :
    (∃ q ∈ stHasP1.selected_players,
      q.firstname = exP1bis.firstname ∧ q.lastname = exP1bis.lastname)
    ∧ addStep exPairs exClock (fun _ => false) stHasP1 (.select exP1bis 3)
      = .continued { stHasP1 with
          trace := stHasP1.trace ++ [AddEvent.duplicateRejected exP1bis] } :=
  ⟨⟨exP1, by decide, by decide, by decide⟩,
    add_players_duplicate_rejected exPairs exClock (fun _ => false) stHasP1 exP1bis 3
      ⟨exP1, by decide, by decide, by decide⟩⟩

/-- C8: after `calculate_leaderboard` runs, `tournament.players_score` is the
dict of lines 78-80: for every registered player the display name
"Firstname Lastname" is a key; the dict holds exactly one entry under that
name; the bound score is the payload of the *last* sorted-leaderboard entry
with that name (on a collision the later entry in sorted order overwrites the
earlier); and when the player's full name is unique among registrants the
bound score is that player's own total score. -/
theorem calculate_leaderboard_players_score (t : Tournament) (prev : ScoreMap)
    (p : Player) (hp : p ∈ t.players_list) :
    lookupKey ((calculate_leaderboard t prev).players_score) (fullname p)
        = lastVal (fullname p) (sorted_leaderboard t prev)
    ∧ (lastVal (fullname p) (sorted_leaderboard t prev)).isSome = true
    ∧ keyCount ((calculate_leaderboard t prev).players_score) (fullname p) = 1
    ∧ ((∀ q ∈ t.players_list, fullname q = fullname p → q = p) →
        lookupKey ((calculate_leaderboard t prev).players_score) (fullname p)
          = some (calculate_total_score p t.rounds prev)) := by
  have hmem : (p, calculate_total_score p t.rounds prev) ∈ sorted_leaderboard t prev := by
    refine (List.Perm.mem_iff (List.perm_insertionSort scoreGE _)).mpr ?_
    exact List.mem_map.mpr ⟨p, hp, rfl⟩
  have hsome : (lastVal (fullname p) (sorted_leaderboard t prev)).isSome = true :=
    lastVal_isSome ⟨(p, calculate_total_score p t.rounds prev), hmem, rfl⟩
  have hlook : lookupKey ((calculate_leaderboard t prev).players_score) (fullname p)
      = lastVal (fullname p) (sorted_leaderboard t prev) := by
    show lookupKey (dictOfPairs (sorted_leaderboard t prev)) (fullname p) = _
    exact lookupKey_dictOfPairs _ _
  obtain ⟨v, hv⟩ := Option.isSome_iff_exists.mp hsome
  refine ⟨hlook, hsome, ?_, ?_⟩
  · refine @keyCount_one _ _ v (dictOfPairs_pairwise _) ?_
    show lookupKey (dictOfPairs (sorted_leaderboard t prev)) (fullname p) = some v
    rw [lookupKey_dictOfPairs, hv]
  · intro huniq
    rw [hlook, hv]
    obtain ⟨pc, hpc, hname, hval⟩ := lastVal_mem hv
    have hpc2 : pc ∈ leaderboard_pairs t prev :=
      (List.Perm.mem_iff (List.perm_insertionSort scoreGE _)).mp hpc
    obtain ⟨q, hq, hqe⟩ := List.mem_map.mp hpc2
    have hq1 : pc.1 = q := by rw [← hqe]
    have hq2 : pc.2 = calculate_total_score q t.rounds prev := by rw [← hqe]
    have hqp : q = p := huniq q hq (by rw [← hq1]; exact hname)
    rw [← hval, hq2, hqp]

theorem calculate_leaderboard_players_score_witness :
    exP1 ∈ tCollide.players_list
    ∧ (lookupKey ((calculate_leaderboard tCollide []).players_score) (fullname exP1)
        = lastVal (fullname exP1) (sorted_leaderboard tCollide [])
      ∧ (lastVal (fullname exP1) (sorted_leaderboard tCollide [])).isSome = true
      ∧ keyCount ((calculate_leaderboard tCollide []).players_score) (fullname exP1) = 1
      ∧ ((∀ q ∈ tCollide.players_list, fullname q = fullname exP1 → q = exP1) →
          lookupKey ((calculate_leaderboard tCollide []).players_score) (fullname exP1)
            = some (calculate_total_score exP1 tCollide.rounds []))) :=
  ⟨by decide, calculate_leaderboard_players_score tCollide [] exP1 (by decide)⟩

/-- C10: calling `add_players_to_tournament` on a tournament whose
`players_list` is non-empty and leaving the registration loop through the
confirmed quit (or by exhausting the input script) without ever reaching a
successful confirm leaves `tournament.players_list` empty: the entry code
clears it (lines 189-193) and only the confirm path re-attaches players, so
the abort path does not restore the pre-existing registrations. -/
theorem add_players_abort_loses_registrations (c : ControllerState)
    (pf : Tournament → List Match) (ck : Nat → String) (ans : Nat → Bool)
    (t : Tournament) (cs : List AddChoice) (st1 : AddState)
    (hne : t.players_list ≠ [])
    (h : add_players_to_tournament c pf ck ans t cs = .stopQuit st1
        ∨ add_players_to_tournament c pf ck ans t cs = .pending st1) :
    st1.tournament.players_list = [] :=
  addRun_abort_players pf ck ans cs (addInit c t) st1 (addInit_players c t) h

theorem add_players_abort_loses_registrations_witness :
    tOneRound.players_list ≠ []
    ∧ add_players_to_tournament controllerInit exPairs exClock (fun _ => false)
        tOneRound [AddChoice.quit true]
      = .stopQuit ((add_players_to_tournament controllerInit exPairs exClock
          (fun _ => false) tOneRound [AddChoice.quit true]).state)
    ∧ (((add_players_to_tournament controllerInit exPairs exClock (fun _ => false)
        tOneRound [AddChoice.quit true]).state)).tournament.players_list = [] :=
  ⟨by decide, by decide, add_players_abort_loses_registrations controllerInit exPairs
    exClock (fun _ => false) tOneRound [AddChoice.quit true] _ (by decide)
    (Or.inl (by decide))⟩

/-- C9: the `players_score` attribute is never created on a controller
object: a fresh controller lacks it, no registration step nor a whole
registration run creates it, and consequently whenever `play_tournament` runs
with a controller lacking the attribute, the `previous_scores` argument that
lines 351-356 pass to `calculate_leaderboard` is the empty dict on every
iteration — every leaderboard is a full recomputation from the round
history. -/
theorem controller_players_score_never_assigned :
    controllerInit.players_score = none
    ∧ (∀ (pf : Tournament → List Match) (ck : Nat → String) (ans : Nat → Bool)
        (st : AddState) (ch : AddChoice),
      ((addStep pf ck ans st ch).state).ctrl.players_score = st.ctrl.players_score)
    ∧ (∀ (pf : Tournament → List Match) (ck : Nat → String) (ans : Nat → Bool)
        (cs : List AddChoice) (st : AddState),
      ((addRun pf ck ans st cs).state).ctrl.players_score = st.ctrl.players_score)
    ∧ (∀ (c : ControllerState) (pf : Tournament → List Match) (ck : Nat → String)
        (ans : Nat → Bool) (t : Tournament) (prev : ScoreMap) (i : Nat)
        (sn : Option String), c.players_score = none →
      PlayEvent.leaderboardCall prev i sn ∈ ((play_tournament c pf ck ans t).state).trace →
      prev = []) := by
  refine ⟨rfl, fun pf ck ans st ch => addStep_ctrl_score pf ck ans st ch,
    fun pf ck ans cs st => addRun_ctrl_score pf ck ans cs st, ?_⟩
  intro c pf ck ans t prev i sn hc hmem
  obtain ⟨_, _, _, es, htr, hmemall⟩ := playLoop_inv c pf ck ans
    (t.rounds.length + 1 - t.current_round) ⟨t, 0, 0, []⟩
  rw [show ((play_tournament c pf ck ans t).state).trace
    = ((playLoop c pf ck ans (t.rounds.length + 1 - t.current_round)
        ⟨t, 0, 0, []⟩).state).trace from rfl, htr, List.nil_append] at hmem
  have hpc := (hmemall _ hmem).2 prev i sn rfl
  rw [hpc, previousScoresOf, hc]

theorem controller_players_score_never_assigned_witness :
    controllerInit.players_score = none
    ∧ PlayEvent.leaderboardCall [] 0 none ∈
        ((play_tournament controllerInit exPairs exClock (fun _ => false)
          tOneRound).state).trace
    ∧ ([] : ScoreMap) = [] :=
  ⟨rfl, by decide, controller_players_score_never_assigned.2.2.2 controllerInit exPairs
    exClock (fun _ => false) tOneRound [] 0 none rfl (by decide)⟩

end Chess
